import Mathlib

/-!
Verification of the WSX trigger/protocol/swap engine against its
natural-language specification.  The repository's shipping sources are
documentation pages; where the executable core is absent the definitions
below are modelled from the specification (each such definition says so in
its doc comment), otherwise they are transcribed from the code blocks in
the documentation sources.
-/

namespace WSX

/-- An out-of-band update carried in a response, `WSXOOBUpdate` of
src/docs/api-reference/server.mdx: a CSS target selector, HTML content and
an optional swap method. -/
structure OOBUpdate where
  target : String
  html : String
  swap : Option String
deriving Repr, DecidableEq

/-- A decoded response envelope, `WSXResponse` of
src/docs/api-reference/server.mdx: `id` correlates the response with the
originating request, `target` is the primary CSS selector, `oob` lists the
out-of-band updates.  On the wire the `id` field may be absent, hence
`Option`; an absent `oob` list decodes as `[]`. -/
structure RawResponse where
  id : Option String
  target : String
  html : String
  swap : Option String
  oob : List OOBUpdate
deriving Repr, DecidableEq

/-- An observable client-side effect of processing one inbound message:
either the swap engine is invoked for a correlated response, or a line is
logged (informational or error). -/
inductive ClientEffect where
  | swapInvoked (id target html : String) (swap : Option String) (oob : List OOBUpdate)
  | logInfo (msg : String)
  | logError (msg : String)
deriving Repr, DecidableEq

/-- `true` exactly on the effect that invokes the swap engine. -/
def ClientEffect.isSwap : ClientEffect → Bool
  | .swapInvoked _ _ _ _ _ => true
  | _ => false

/-- Client-side connection state: the ids of still-pending requests and
whether the transport connection is alive. -/
structure ClientState where
  pending : List String
  connected : Bool
deriving Repr, DecidableEq

/-- Modelled from the spec: the client's processing of one inbound response
message (Protocol Codec strictness, section 4.3, and the correlation
invariant of section 3); the concrete client implementation is not among
this repository's sources.  A response with no `id` is a fatal per-message
protocol error: it is dropped and an error is logged.  A response whose
`id` matches no pending request is discarded with an informational log
only.  Otherwise the pending entry is consumed and the swap engine is
invoked.  The connection is left alive in every branch. -/
def processMessage (st : ClientState) (msg : RawResponse) : ClientState × List ClientEffect :=
  match msg.id with
  | none => (st, [.logError "protocol error: response missing id"])
  | some i =>
      if i ∈ st.pending then
        ({ st with pending := st.pending.erase i },
         [.swapInvoked i msg.target msg.html msg.swap msg.oob])
      else
        (st, [.logInfo "discarding uncorrelated response"])

/-! ### Swap Engine and out-of-band application -/

/-- A minimal DOM model: an association of CSS selectors to the current
HTML content of the matching element. -/
def Dom := List (String × String)

/-- Whether some element matches the selector. -/
def domHas (dom : Dom) (sel : String) : Bool :=
  dom.any (fun e => e.1 == sel)

/-- One content mutation of the Swap Engine (section 4.6): replace inner
content by default, append for `beforeend`, prepend for `afterbegin`;
`delete` removes the element. -/
def applyUpdate (dom : Dom) (target html : String) (swap : Option String) : Dom :=
  let mode := swap.getD "innerHTML"
  if mode == "delete" then
    dom.filter (fun e => e.1 != target)
  else
    dom.map (fun e =>
      if e.1 == target then
        (e.1, if mode == "beforeend" then e.2 ++ html
              else if mode == "afterbegin" then html ++ e.2
              else html)
      else e)

/-- Modelled from the spec: application of one out-of-band entry (section
4.6); the Swap Engine implementation is not among this repository's
sources.  An entry whose own target matches no element is skipped with a
logged warning; otherwise its mutation is applied. -/
def applyOOB (dom : Dom) (u : OOBUpdate) : Dom × List String :=
  if domHas dom u.target then (applyUpdate dom u.target u.html u.swap, [])
  else (dom, ["OOB target not found: " ++ u.target])

/-- Apply every out-of-band entry in order, accumulating warnings. -/
def applyOOBList (dom : Dom) : List OOBUpdate → Dom × List String
  | [] => (dom, [])
  | u :: us =>
      let r := applyOOB dom u
      let r2 := applyOOBList r.1 us
      (r2.1, r.2 ++ r2.2)

/-- Modelled from the spec: the primary update of a response (section 4.6
and the SwapTargetMissing taxonomy of section 7): a missing primary target
is fatal to the primary update only, recorded as a warning. -/
def applyPrimary (dom : Dom) (msg : RawResponse) : Dom × List String :=
  if domHas dom msg.target then (applyUpdate dom msg.target msg.html msg.swap, [])
  else (dom, ["swap target missing: " ++ msg.target])

/-- Modelled from the spec: the Swap Engine's application of one full
response (section 4.6): the primary update first, then each out-of-band
entry independently. -/
def applyResponse (dom : Dom) (msg : RawResponse) : Dom × List String :=
  let prim := applyPrimary dom msg
  let r := applyOOBList prim.1 msg.oob
  (r.1, prim.2 ++ r.2)

/-! ### Broadcast construction and its default swap -/

/-- A queued broadcast entry of `RateLimitedBroadcaster`
(src/unnamed/part_008): `broadcast` pushes target, html, swap and a
timestamp onto the queue. -/
structure BroadcastEntry where
  target : String
  html : String
  swap : String
  timestamp : Nat
deriving Repr, DecidableEq

/-- `RateLimitedBroadcaster.broadcast(target, html, swap = 'innerHTML')`
from src/unnamed/part_008: the JavaScript default parameter is modelled as
an optional argument defaulted with `getD`. -/
def rlBroadcast (queue : List BroadcastEntry) (target html : String)
    (swap : Option String) (now : Nat) : List BroadcastEntry :=
  queue ++ [{ target := target, html := html, swap := swap.getD "innerHTML", timestamp := now }]

/-- The update payload a server send constructs: target selector, HTML and
the effective swap method. -/
structure ServerUpdate where
  target : String
  html : String
  swap : String
deriving Repr, DecidableEq

/-- Modelled from the spec: `WSXServer.broadcast(target, html, swap?)` of
src/docs/api-reference/server.mdx (default swap 'innerHTML'); the server
core is not among this repository's sources.  Fans the constructed update
out to every live connection id. -/
def broadcastAll (conns : List Nat) (target html : String) (swap : Option String) :
    List (Nat × ServerUpdate) :=
  conns.map (fun c => (c, { target := target, html := html, swap := swap.getD "innerHTML" }))

/-- Modelled from the spec: `WSXServer.sendToConnection(connectionId,
target, html, swap?)` of src/docs/api-reference/server.mdx (default swap
'innerHTML'). -/
def sendToConnection (c : Nat) (target html : String) (swap : Option String) :
    Nat × ServerUpdate :=
  (c, { target := target, html := html, swap := swap.getD "innerHTML" })

/-! ### Server adapter connection registry -/

/-- A server-side connection as built by `createConnection` of
`CustomFrameworkAdapter` (src/unnamed/part_007) and `BaseWSXAdapter`
(src/unnamed/part_006): a fresh unique id and an initially empty session
data map.  Ids are modelled as naturals drawn from a counter, matching the
uniqueness contract of `uuidv4`. -/
structure SConn where
  id : Nat
  sessionData : List (String × String)
deriving Repr, DecidableEq

/-- The adapter's bookkeeping: the `connections` Map (as an association
list) and the id generator state. -/
structure AdapterState where
  connections : List (Nat × SConn)
  nextId : Nat
deriving Repr, DecidableEq

/-- A socket-level event delivered to the adapter: a new socket upgrade, or
the close/error event of the socket owning id `i`. -/
inductive SockEvent where
  | connect
  | close (i : Nat)
  | sockError (i : Nat)
deriving Repr, DecidableEq

/-- The adapter state paired with the ghost set of sockets that are still
open, used to state the registry invariant. -/
structure AdapterWorld where
  st : AdapterState
  openIds : List Nat
deriving Repr, DecidableEq

/-- Removal of a connection id, as `this.connections.delete(connection.id)`
in the `close` and `error` callbacks of src/unnamed/part_007. -/
def removeConn (st : AdapterState) (i : Nat) : AdapterState :=
  { st with connections := st.connections.filter (fun e => e.1 != i) }

/-- One adapter transition, transcribed from `setupWebSocket` of
`CustomFrameworkAdapter` (src/unnamed/part_007): a new socket gets a fresh
connection inserted into the Map; the socket's close and error callbacks
both delete its id from the Map.  Close/error events of sockets that are
no longer open cannot fire, hence are no-ops. -/
def adapterStep (w : AdapterWorld) : SockEvent → AdapterWorld
  | .connect =>
      let conn : SConn := { id := w.st.nextId, sessionData := [] }
      { st := { connections := (conn.id, conn) :: w.st.connections, nextId := w.st.nextId + 1 },
        openIds := conn.id :: w.openIds }
  | .close i =>
      if i ∈ w.openIds then
        { st := removeConn w.st i, openIds := w.openIds.erase i }
      else w
  | .sockError i =>
      if i ∈ w.openIds then
        { st := removeConn w.st i, openIds := w.openIds.erase i }
      else w

/-- The adapter's initial world: empty Map, no open sockets. -/
def initWorld : AdapterWorld :=
  { st := { connections := [], nextId := 0 }, openIds := [] }

/-- Run a sequence of socket events from a world. -/
def runAdapter (w : AdapterWorld) (es : List SockEvent) : AdapterWorld :=
  es.foldl adapterStep w

/-! ### Client connection lifecycle manager -/

/-- The lifecycle states of section 4.7:
Disconnected → Connecting → Connected → (Disconnected | Reconnecting) →
Connecting → … .  `reconnectWait d` is the Reconnecting state with a
reconnect scheduled `d` milliseconds ahead. -/
inductive ConnState where
  | disconnected
  | connecting
  | connected
  | reconnectWait (delayMs : Nat)
deriving Repr, DecidableEq

/-- Lifecycle manager state: the connection state, the count of reconnect
attempts already made, and the two externally configurable parameters of
src/unnamed/part_001 (`maxReconnectAttempts` may be negative, meaning
unlimited; `0` means no reconnection). -/
structure Lifecycle where
  state : ConnState
  attempts : Nat
  maxReconnectAttempts : Int
  reconnectInterval : Nat
deriving Repr, DecidableEq

/-- An event observed by the lifecycle manager: the transport opened, the
transport closed or errored, or a scheduled reconnect timer elapsed. -/
inductive LifeEvent where
  | openEvt
  | closeOrError
  | timerElapsed
deriving Repr, DecidableEq

/-- Modelled from the spec: one lifecycle transition (section 4.7 and the
`maxReconnectAttempts` semantics of src/unnamed/part_001); the client
implementation is not among this repository's sources.  On close/error,
if attempts are not exhausted (any count when `maxReconnectAttempts` is
negative) a reconnect is scheduled `reconnectInterval` ms ahead and the
attempt count rises; otherwise the manager becomes `disconnected`, which
no event of the manager leaves (only an external connect call would). -/
def lifeStep (lc : Lifecycle) : LifeEvent → Lifecycle
  | .openEvt =>
      match lc.state with
      | .connecting => { lc with state := .connected, attempts := 0 }
      | _ => lc
  | .closeOrError =>
      match lc.state with
      | .connecting =>
          if lc.maxReconnectAttempts < 0 ∨ (lc.attempts : Int) < lc.maxReconnectAttempts then
            { lc with state := .reconnectWait lc.reconnectInterval, attempts := lc.attempts + 1 }
          else { lc with state := .disconnected }
      | .connected =>
          if lc.maxReconnectAttempts < 0 ∨ (lc.attempts : Int) < lc.maxReconnectAttempts then
            { lc with state := .reconnectWait lc.reconnectInterval, attempts := lc.attempts + 1 }
          else { lc with state := .disconnected }
      | _ => lc
  | .timerElapsed =>
      match lc.state with
      | .reconnectWait _ => { lc with state := .connecting }
      | _ => lc

/-- Run a sequence of lifecycle events. -/
def lifeRun (lc : Lifecycle) (es : List LifeEvent) : Lifecycle :=
  es.foldl lifeStep lc

/-! ### Trigger descriptors and the trigger evaluator -/

/-- The condition bracket of a trigger specification (section 4.1): a bare
key name, a modifier-key/key pair, the `value` or `checked` literal, or a
`value='literal'` equality test. -/
inductive TrigCond where
  | keyName (k : List Char)
  | modKey (m k : List Char)
  | valuePresent
  | checkedCond
  | valueEquals (lit : List Char)
deriving Repr, DecidableEq

/-- The scroll edge of the `scroll[edge]` modifier. -/
inductive ScrollEdge where
  | top
  | bottom
deriving Repr, DecidableEq

/-- The modifier record of a trigger descriptor (data model, section 3):
durations are normalized to milliseconds at parse time; `intersect` keeps
its raw ratio literal (`none` inside means default visibility). -/
structure TrigMods where
  throttleMs : Option Nat
  debounceMs : Option Nat
  delayMs : Option Nat
  once : Bool
  changedOnly : Bool
  intersect : Option (Option (List Char))
  scrollEdge : Option ScrollEdge
deriving Repr, DecidableEq

/-- The empty modifier record: no timing modifiers, no flags. -/
def noMods : TrigMods :=
  { throttleMs := none, debounceMs := none, delayMs := none,
    once := false, changedOnly := false, intersect := none, scrollEdge := none }

/-- One event alternate of a descriptor: event name, optional condition
bracket, modifiers. -/
structure TrigSpec where
  eventName : List Char
  cond : Option TrigCond
  mods : TrigMods
deriving Repr, DecidableEq

/-- A full trigger descriptor: the comma-separated alternates. -/
abbrev TrigDescriptor := List TrigSpec

/-- The mutable per-element evaluator state (data model, section 3):
last observed value, the `once` latch, the time of the last emission (for
throttling) and the pending debounce/delay timer with its captured value. -/
structure TrigState where
  lastValue : Option String
  firedOnce : Bool
  lastEmit : Option Nat
  pendingDebounce : Option (Nat × String)
deriving Repr, DecidableEq

/-- The evaluator state at bind time. -/
def initTrigState : TrigState :=
  { lastValue := none, firedOnce := false, lastEmit := none, pendingDebounce := none }

/-- Fire a pending debounce/delay timer whose deadline has passed by `now`:
the emission is stamped with the deadline time and latches `firedOnce`. -/
def flushPending (s : TrigState) (now : Nat) : TrigState × List (Nat × String) :=
  match s.pendingDebounce with
  | some (tf, v) =>
      if tf ≤ now then
        ({ s with pendingDebounce := none, firedOnce := true, lastEmit := some tf }, [(tf, v)])
      else (s, [])
  | none => (s, [])

/-- Modelled from the spec: the Trigger Evaluator's handling of one
qualifying event (section 4.2, steps 3–5; steps 1–2, the key and value
filters, select which events qualify and are applied before this point);
the evaluator implementation is not among this repository's sources.
Pending timers whose deadline passed fire first; then the `changed` check
(ignoring an unchanged value), the `once` latch, and the timing modifiers:
`throttle` fires immediately unless an emission happened within the window
and otherwise drops the event outright; `queue` (debounce) restarts the
timer capturing this event's value; `delay` behaves like a debounce when
repeated (section 4.2, step 5); with no timing modifier the event fires at
once.  Combining `throttle` or `queue` with `delay` is unsupported by the
spec and outside this model. -/
def stepCore (m : TrigMods) (s1 : TrigState) (t : Nat) (v : String) :
    TrigState × List (Nat × String) :=
  if m.changedOnly ∧ s1.lastValue = some v then (s1, [])
  else
    let s2 := { s1 with lastValue := some v }
    if m.once ∧ s2.firedOnce then (s2, [])
    else
      match m.throttleMs with
      | some T =>
          match s2.lastEmit with
          | some te =>
              if t < te + T then (s2, [])
              else ({ s2 with lastEmit := some t, firedOnce := true }, [(t, v)])
          | none => ({ s2 with lastEmit := some t, firedOnce := true }, [(t, v)])
      | none =>
          match m.debounceMs with
          | some T => ({ s2 with pendingDebounce := some (t + T, v) }, [])
          | none =>
              match m.delayMs with
              | some D => ({ s2 with pendingDebounce := some (t + D, v) }, [])
              | none => ({ s2 with lastEmit := some t, firedOnce := true }, [(t, v)])

/-- One full event step: fire any due pending timer, then run the gating
core; emissions of both parts are concatenated in time order. -/
def stepEvent (m : TrigMods) (s : TrigState) (t : Nat) (v : String) :
    TrigState × List (Nat × String) :=
  let fl := flushPending s t
  let r := stepCore m fl.1 t v
  (r.1, fl.2 ++ r.2)

/-- Run the evaluator over a time-ordered list of qualifying events,
flushing any still-pending timer once the trace ends. -/
def runEvents (m : TrigMods) (s : TrigState) : List (Nat × String) → TrigState × List (Nat × String)
  | [] =>
      match s.pendingDebounce with
      | some (tf, v) =>
          ({ s with pendingDebounce := none, firedOnce := true, lastEmit := some tf }, [(tf, v)])
      | none => (s, [])
  | (t, v) :: rest =>
      let r := stepEvent m s t v
      let r2 := runEvents m r.1 rest
      (r2.1, r.2 ++ r2.2)

/-! ### The trigger specification grammar: parsing and serialization -/

/-- The ten decimal digit characters, as produced by the serializer. -/
def toDigitChar : Nat → Char
  | 0 => '0' | 1 => '1' | 2 => '2' | 3 => '3' | 4 => '4'
  | 5 => '5' | 6 => '6' | 7 => '7' | 8 => '8' | _ => '9'

/-- The numeric value of a decimal digit character, if it is one. -/
def digitVal (c : Char) : Option Nat :=
  if '0' ≤ c ∧ c ≤ '9' then some (c.toNat - 48) else none

/-- Decimal digits of `n`, least significant first (`[]` for zero). -/
def natToRevDigits : Nat → List Char
  | 0 => []
  | n + 1 => toDigitChar ((n + 1) % 10) :: natToRevDigits ((n + 1) / 10)
decreasing_by exact Nat.div_lt_self (Nat.succ_pos n) (by norm_num)

/-- Canonical decimal rendering of a natural number. -/
def natToChars (n : Nat) : List Char :=
  if n = 0 then ['0'] else (natToRevDigits n).reverse

/-- Accumulating decimal reader. -/
def charsToNatAux : List Char → Nat → Option Nat
  | [], acc => some acc
  | c :: cs, acc =>
      match digitVal c with
      | some d => charsToNatAux cs (acc * 10 + d)
      | none => none

/-- Read a nonempty all-digit character list as a natural number. -/
def charsToNat : List Char → Option Nat
  | [] => none
  | c :: cs => charsToNatAux (c :: cs) 0

/-- Parse a duration token body (section 4.1): digits with an `ms` or `s`
suffix, the latter scaled to milliseconds; a missing unit is an error. -/
def parseDuration (cs : List Char) : Except String Nat :=
  match cs.reverse with
  | 's' :: 'm' :: dr =>
      match charsToNat dr.reverse with
      | some n => .ok n
      | none => .error "malformed duration"
  | 's' :: dr =>
      match charsToNat dr.reverse with
      | some n => .ok (n * 1000)
      | none => .error "malformed duration"
  | _ => .error "duration missing unit"

/-- Canonical duration rendering: always in milliseconds. -/
def durChars (n : Nat) : List Char :=
  natToChars n ++ ['m', 's']

/-- Boolean prefix test on character lists. -/
def hasPrefix : List Char → List Char → Bool
  | [], _ => true
  | a :: as, cs =>
      match cs with
      | [] => false
      | b :: bs => if a = b then hasPrefix as bs else false

/-- Parse the contents of a condition bracket (section 4.1): the `value` or
`checked` literal, a `value='literal'` equality test, a
`modifierKey+keyName` pair, or a bare key name. -/
def parseCond (cs : List Char) : Except String TrigCond :=
  if cs = "value".toList then .ok .valuePresent
  else if cs = "checked".toList then .ok .checkedCond
  else if hasPrefix "value='".toList cs then
    match (cs.drop 7).reverse with
    | '\'' :: revLit => .ok (.valueEquals revLit.reverse)
    | _ => .error "malformed value condition"
  else
    match cs.dropWhile (· ≠ '+') with
    | '+' :: k =>
        let m := cs.takeWhile (· ≠ '+')
        if m = [] ∨ k = [] then .error "malformed key combination"
        else .ok (.modKey m k)
    | _ =>
        if cs = [] then .error "empty condition"
        else .ok (.keyName cs)

/-- Serialization of a condition bracket's contents. -/
def condToChars : TrigCond → List Char
  | .keyName k => k
  | .modKey m k => m ++ '+' :: k
  | .valuePresent => "value".toList
  | .checkedCond => "checked".toList
  | .valueEquals lit => "value='".toList ++ lit ++ ['\'']

/-- A single parsed modifier token (the tagged-variant representation of
section 9). -/
inductive ModTok where
  | throttle (n : Nat)
  | queue (n : Nat)
  | delay (n : Nat)
  | onceM
  | changedM
  | intersectM (r : Option (List Char))
  | scrollM (e : ScrollEdge)
deriving Repr, DecidableEq

/-- Parse one modifier token (section 4.1): `throttle:<dur>`,
`queue[:<dur>]` with alias `debounce` and default 300ms, `delay:<dur>`,
`once`, `changed`, `intersect[:<ratio>]`, `scroll[top]`, `scroll[bottom]`.
An unknown modifier is a `ParseError`, never silently dropped. -/
def parseModTok (cs : List Char) : Except String ModTok :=
  match cs.dropWhile (· ≠ ':') with
  | ':' :: arg =>
      let name := cs.takeWhile (· ≠ ':')
      if name = "throttle".toList then (parseDuration arg).map ModTok.throttle
      else if name = "queue".toList ∨ name = "debounce".toList then
        (parseDuration arg).map ModTok.queue
      else if name = "delay".toList then (parseDuration arg).map ModTok.delay
      else if name = "intersect".toList then
        if arg = [] then .error "empty intersect ratio" else .ok (.intersectM (some arg))
      else .error "unknown modifier"
  | _ =>
      if cs = "once".toList then .ok .onceM
      else if cs = "changed".toList then .ok .changedM
      else if cs = "queue".toList ∨ cs = "debounce".toList then .ok (.queue 300)
      else if cs = "intersect".toList then .ok (.intersectM none)
      else if cs = "scroll[top]".toList then .ok (.scrollM .top)
      else if cs = "scroll[bottom]".toList then .ok (.scrollM .bottom)
      else .error "unknown modifier"

/-- Canonical serialization of one modifier token. -/
def modTokChars : ModTok → List Char
  | .throttle n => "throttle".toList ++ ':' :: durChars n
  | .queue n => "queue".toList ++ ':' :: durChars n
  | .delay n => "delay".toList ++ ':' :: durChars n
  | .onceM => "once".toList
  | .changedM => "changed".toList
  | .intersectM none => "intersect".toList
  | .intersectM (some r) => "intersect".toList ++ ':' :: r
  | .scrollM .top => "scroll[top]".toList
  | .scrollM .bottom => "scroll[bottom]".toList

/-- Fold one modifier token into the modifier record; combining `throttle`
with `queue` is a parse-time error (section 4.2, step 5). -/
def applyModTok (r : TrigMods) : ModTok → Except String TrigMods
  | .throttle n =>
      if r.debounceMs.isSome then .error "throttle and queue are exclusive"
      else .ok { r with throttleMs := some n }
  | .queue n =>
      if r.throttleMs.isSome then .error "throttle and queue are exclusive"
      else .ok { r with debounceMs := some n }
  | .delay n => .ok { r with delayMs := some n }
  | .onceM => .ok { r with once := true }
  | .changedM => .ok { r with changedOnly := true }
  | .intersectM r0 => .ok { r with intersect := some r0 }
  | .scrollM e => .ok { r with scrollEdge := some e }

/-- Fold a list of modifier tokens into a record. -/
def foldMods : TrigMods → List ModTok → Except String TrigMods
  | r, [] => .ok r
  | r, m :: ms => (applyModTok r m).bind (fun r2 => foldMods r2 ms)

/-- The canonical modifier token list of a record, in serialization order. -/
def modsToList (m : TrigMods) : List ModTok :=
  (match m.throttleMs with | some n => [.throttle n] | none => [])
  ++ (match m.debounceMs with | some n => [.queue n] | none => [])
  ++ (match m.delayMs with | some n => [.delay n] | none => [])
  ++ (if m.once then [.onceM] else [])
  ++ (if m.changedOnly then [.changedM] else [])
  ++ (match m.intersect with | some r => [.intersectM r] | none => [])
  ++ (match m.scrollEdge with | some e => [.scrollM e] | none => [])

/-- Split a character list at every occurrence of `sep`. -/
def splitSep (sep : Char) : List Char → List (List Char)
  | [] => [[]]
  | c :: cs =>
      let r := splitSep sep cs
      if c = sep then [] :: r
      else
        match r with
        | [] => [[c]]
        | x :: xs => (c :: x) :: xs

/-- Join fragments with a separator character. -/
def joinSep (sep : Char) : List (List Char) → List Char
  | [] => []
  | [x] => x
  | x :: y :: xs => x ++ sep :: joinSep sep (y :: xs)

/-- The whitespace-separated tokens of one comma fragment. -/
def splitTokens (cs : List Char) : List (List Char) :=
  (splitSep ' ' cs).filter (fun t => !t.isEmpty)

/-- Generic traversal of a list under `Except`. -/
def mapExcept {α β : Type} (f : α → Except String β) : List α → Except String (List β)
  | [] => .ok []
  | x :: xs => (f x).bind (fun y => (mapExcept f xs).map (fun ys => y :: ys))

/-- Parse the leading event token of a fragment:
`<eventName>[<conditionBracket>]?` (section 4.1). -/
def parseEventTok (cs : List Char) : Except String (List Char × Option TrigCond) :=
  let ev := cs.takeWhile (· ≠ '[')
  if ev = [] then .error "empty event name"
  else
    match cs.dropWhile (· ≠ '[') with
    | [] => .ok (ev, none)
    | _ :: rest =>
        match rest.dropWhile (· ≠ ']') with
        | [']'] => (parseCond (rest.takeWhile (· ≠ ']'))).map (fun c => (ev, some c))
        | _ => .error "malformed condition bracket"

/-- Modelled from the spec: parse one comma-separated alternate,
`<eventName>[<conditionBracket>]? <modifier>*` (section 4.1); the Trigger
Descriptor Parser implementation is not among this repository's sources. -/
def parseSpecChars (cs : List Char) : Except String TrigSpec :=
  match splitTokens cs with
  | [] => .error "empty trigger spec"
  | t0 :: mts =>
      (parseEventTok t0).bind fun ec =>
      (mapExcept parseModTok mts).bind fun toks =>
      (foldMods noMods toks).map fun r =>
      { eventName := ec.1, cond := ec.2, mods := r }

/-- The event token of one alternate's canonical serialization. -/
def eventTokChars (ev : List Char) (cond : Option TrigCond) : List Char :=
  ev ++ (match cond with
    | some c => '[' :: (condToChars c ++ [']'])
    | none => [])

/-- The token list of one alternate's canonical serialization. -/
def specTokens (sp : TrigSpec) : List (List Char) :=
  eventTokChars sp.eventName sp.cond :: (modsToList sp.mods).map modTokChars

/-- Canonical serialization of one alternate. -/
def serializeSpecChars (sp : TrigSpec) : List Char :=
  joinSep ' ' (specTokens sp)

/-- Modelled from the spec: parse a full trigger specification, the
comma-separated alternates of section 4.1. -/
def parseTriggerChars (cs : List Char) : Except String TrigDescriptor :=
  mapExcept parseSpecChars (splitSep ',' cs)

/-- Canonical serialization of a full descriptor. -/
def serializeTriggerChars (d : TrigDescriptor) : List Char :=
  joinSep ',' (d.map serializeSpecChars)

/-- Parse a trigger specification string. -/
def parseTrigger (s : String) : Except String TrigDescriptor :=
  parseTriggerChars s.toList

/-- Serialize a descriptor back to a trigger specification string. -/
def serializeTrigger (d : TrigDescriptor) : String :=
  String.mk (serializeTriggerChars d)

/-! ## Theorems -/

/-- C1: a `ResponseEnvelope` whose id does not equal the id of a
still-pending request is discarded with a log only (state unchanged, no
swap), and the swap engine is only ever invoked for responses whose id
matches a pending request. -/
theorem response_correlation_c1 (st : ClientState) (msg : RawResponse) :
    (∀ e ∈ (processMessage st msg).2, e.isSwap = true →
        ∃ i, msg.id = some i ∧ i ∈ st.pending)
    ∧ (∀ i, msg.id = some i → i ∉ st.pending →
        (processMessage st msg).1 = st ∧
        (processMessage st msg).2 = [ClientEffect.logInfo "discarding uncorrelated response"]) := by
  constructor
  · intro e he hs
    cases h : msg.id with
    | none =>
        simp only [processMessage, h, List.mem_singleton] at he
        subst he
        simp [ClientEffect.isSwap] at hs
    | some i =>
        by_cases hp : i ∈ st.pending
        · exact ⟨i, rfl, hp⟩
        · simp only [processMessage, h, if_neg hp, List.mem_singleton] at he
          subst he
          simp [ClientEffect.isSwap] at hs
  · intro i h hp
    simp [processMessage, h, hp]

/-- Witness for C1: a concrete uncorrelated response is discarded without
touching state. -/
theorem response_correlation_c1_witness :
    (processMessage ⟨["r1"], true⟩ ⟨some "r2", "#t", "x", none, []⟩).1 = ⟨["r1"], true⟩ ∧
    (processMessage ⟨["r1"], true⟩ ⟨some "r2", "#t", "x", none, []⟩).2
      = [ClientEffect.logInfo "discarding uncorrelated response"] :=
  (response_correlation_c1 ⟨["r1"], true⟩ ⟨some "r2", "#t", "x", none, []⟩).2 "r2" rfl
    (by decide)

/-- C7: an inbound response with no `id` field is a fatal per-message
protocol error: the message is dropped with an error log, the connection
stays alive, and no swap (DOM update) is performed. -/
theorem missing_id_fatal_c7 (st : ClientState) (msg : RawResponse) (h : msg.id = none) :
    (processMessage st msg).1 = st ∧
    (processMessage st msg).1.connected = st.connected ∧
    (processMessage st msg).2 = [ClientEffect.logError "protocol error: response missing id"] ∧
    ∀ e ∈ (processMessage st msg).2, e.isSwap = false := by
  refine ⟨by simp [processMessage, h], by simp [processMessage, h], by simp [processMessage, h], ?_⟩
  intro e he
  simp only [processMessage, h, List.mem_singleton] at he
  subst he
  rfl

/-- Witness for C7: a concrete id-less message is dropped, logged, and the
connection stays alive. -/
theorem missing_id_fatal_c7_witness :
    (processMessage ⟨["r1"], true⟩ ⟨none, "#t", "x", none, []⟩).1 = ⟨["r1"], true⟩ ∧
    (processMessage ⟨["r1"], true⟩ ⟨none, "#t", "x", none, []⟩).1.connected = true ∧
    (processMessage ⟨["r1"], true⟩ ⟨none, "#t", "x", none, []⟩).2
      = [ClientEffect.logError "protocol error: response missing id"] ∧
    ∀ e ∈ (processMessage ⟨["r1"], true⟩ ⟨none, "#t", "x", none, []⟩).2, e.isSwap = false :=
  missing_id_fatal_c7 ⟨["r1"], true⟩ ⟨none, "#t", "x", none, []⟩ rfl

/-- C10: omitting the swap argument of `broadcast` or `sendToConnection`
constructs the same update as passing 'innerHTML' explicitly. -/
theorem default_swap_innerHTML_c10 :
    (∀ conns target html, broadcastAll conns target html none
        = broadcastAll conns target html (some "innerHTML"))
    ∧ (∀ c target html, sendToConnection c target html none
        = sendToConnection c target html (some "innerHTML"))
    ∧ (∀ q target html now, rlBroadcast q target html none now
        = rlBroadcast q target html (some "innerHTML") now) :=
  ⟨fun _ _ _ => rfl, fun _ _ _ => rfl, fun _ _ _ _ => rfl⟩

/-- A disconnected manager is terminal for every manager-internal event:
no reconnect is ever scheduled again. -/
theorem lifeRun_disconnected (es : List LifeEvent) :
    ∀ lc : Lifecycle, lc.state = .disconnected → (lifeRun lc es).state = .disconnected := by
  induction es with
  | nil => intro lc h; exact h
  | cons e es ih =>
      intro lc h
      have hstep : (lifeStep lc e).state = .disconnected := by
        cases e <;> simp [lifeStep, h]
      exact ih (lifeStep lc e) hstep

/-- C6: with a finite nonnegative `maxReconnectAttempts`, once that many
attempts have been used a close/error sends the manager to the terminal
`Disconnected` state, from which no event sequence ever schedules another
reconnect; with a negative `maxReconnectAttempts` every close/error
schedules a reconnect `reconnectInterval` ms ahead. -/
theorem reconnect_bound_c6 (lc : Lifecycle) :
    (0 ≤ lc.maxReconnectAttempts → lc.maxReconnectAttempts ≤ (lc.attempts : Int) →
      (lc.state = .connected ∨ lc.state = .connecting) →
      (lifeStep lc .closeOrError).state = .disconnected ∧
      ∀ es, (lifeRun (lifeStep lc .closeOrError) es).state = .disconnected)
    ∧ (lc.maxReconnectAttempts < 0 →
      (lc.state = .connected ∨ lc.state = .connecting) →
      lifeStep lc .closeOrError
        = { lc with state := .reconnectWait lc.reconnectInterval,
                    attempts := lc.attempts + 1 }) := by
  constructor
  · intro h0 hmax hst
    have hcond : ¬(lc.maxReconnectAttempts < 0 ∨ (lc.attempts : Int) < lc.maxReconnectAttempts) := by
      omega
    have hstep : (lifeStep lc .closeOrError).state = .disconnected := by
      rcases hst with h | h <;> simp [lifeStep, h, hcond]
    exact ⟨hstep, fun es => lifeRun_disconnected es _ hstep⟩
  · intro hneg hst
    have hcond : lc.maxReconnectAttempts < 0 ∨ (lc.attempts : Int) < lc.maxReconnectAttempts :=
      Or.inl hneg
    rcases hst with h | h <;> simp [lifeStep, h, hcond]

/-- Witness for C6: a manager with 5 of 5 attempts used goes terminal on
close and stays disconnected through further events. -/
theorem reconnect_bound_c6_witness :
    (lifeStep ⟨.connected, 5, 5, 3000⟩ .closeOrError).state = .disconnected ∧
    (lifeRun (lifeStep ⟨.connected, 5, 5, 3000⟩ .closeOrError)
        [.timerElapsed, .closeOrError, .openEvt]).state = .disconnected := by
  have h := (reconnect_bound_c6 ⟨.connected, 5, 5, 3000⟩).1 (by decide) (by decide) (Or.inl rfl)
  exact ⟨h.1, h.2 [.timerElapsed, .closeOrError, .openEvt]⟩

/-- Splitting an out-of-band list applies the two halves in sequence,
concatenating warnings. -/
theorem applyOOBList_append (xs ys : List OOBUpdate) :
    ∀ dom : Dom, applyOOBList dom (xs ++ ys)
      = ((applyOOBList (applyOOBList dom xs).1 ys).1,
         (applyOOBList dom xs).2 ++ (applyOOBList (applyOOBList dom xs).1 ys).2) := by
  induction xs with
  | nil => intro dom; simp [applyOOBList]
  | cons u us ih =>
      intro dom
      simp only [List.cons_append, applyOOBList, ih]
      simp [ih, List.append_assoc]

/-- C2: out-of-band updates are applied independently of the primary
update: a missing primary target still lets every OOB entry be processed
exactly as usual (with one extra warning), and an OOB entry whose own
target is missing at its turn is skipped with a warning while the primary
update and all other OOB entries are still applied. -/
theorem oob_independence_c2 (dom : Dom) (msg : RawResponse) :
    (domHas dom msg.target = false →
      applyResponse dom msg
        = ((applyOOBList dom msg.oob).1,
           ("swap target missing: " ++ msg.target) :: (applyOOBList dom msg.oob).2))
    ∧ (∀ pre u post, msg.oob = pre ++ u :: post →
        domHas (applyOOBList (applyPrimary dom msg).1 pre).1 u.target = false →
        (applyResponse dom msg).1
          = (applyResponse dom { msg with oob := pre ++ post }).1
        ∧ (applyResponse dom msg).2
          = (applyPrimary dom msg).2
            ++ (applyOOBList (applyPrimary dom msg).1 pre).2
            ++ ("OOB target not found: " ++ u.target)
               :: (applyOOBList (applyOOBList (applyPrimary dom msg).1 pre).1 post).2) := by
  constructor
  · intro h
    simp [applyResponse, applyPrimary, h]
  · intro pre u post hoob hmiss
    have hprim : applyPrimary dom { msg with oob := pre ++ post } = applyPrimary dom msg := rfl
    have hstep : applyOOB (applyOOBList (applyPrimary dom msg).1 pre).1 u
        = ((applyOOBList (applyPrimary dom msg).1 pre).1,
           ["OOB target not found: " ++ u.target]) := by
      simp [applyOOB, hmiss]
    constructor
    · simp only [applyResponse, hprim, hoob, applyOOBList_append, applyOOBList, hstep]
    · simp only [applyResponse, hprim, hoob, applyOOBList_append, applyOOBList, hstep]
      simp [List.append_assoc]

/-- Witness for C2: a response whose primary target is absent from a
one-element DOM still has its OOB updates processed. -/
theorem oob_independence_c2_witness :
    applyResponse [("#counter", "old")]
        ⟨some "r1", "#main", "new", none, [⟨"#counter", "5", none⟩]⟩
      = ((applyOOBList [("#counter", "old")] [⟨"#counter", "5", none⟩]).1,
         ("swap target missing: " ++ "#main")
           :: (applyOOBList [("#counter", "old")] [⟨"#counter", "5", none⟩]).2) :=
  (oob_independence_c2 [("#counter", "old")]
      ⟨some "r1", "#main", "new", none, [⟨"#counter", "5", none⟩]⟩).1 (by decide)

/-- Keys of an association list survive filtering by key. -/
theorem map_fst_filter_ne {α β : Type} [DecidableEq α] (l : List (α × β)) (i : α) :
    (l.filter (fun e => e.1 != i)).map Prod.fst = (l.map Prod.fst).filter (fun a => a != i) := by
  induction l with
  | nil => rfl
  | cons x xs ih =>
      simp only [List.filter_cons, List.map_cons]
      by_cases h : x.1 = i
      · simp [h, ih]
      · simp [h, ih]

/-- Key membership in an association list. -/
theorem mem_map_fst {α β : Type} {l : List (α × β)} {a : α} :
    a ∈ l.map Prod.fst ↔ ∃ b, (a, b) ∈ l := by
  constructor
  · intro h
    rcases List.mem_map.1 h with ⟨⟨x, y⟩, hx, rfl⟩
    exact ⟨y, hx⟩
  · rintro ⟨b, hb⟩
    exact List.mem_map.2 ⟨(a, b), hb, rfl⟩

/-- The registry invariant: the connections Map's keys are exactly the
still-open socket ids, those ids are mutually distinct, and all sit below
the fresh-id counter. -/
def GoodWorld (w : AdapterWorld) : Prop :=
  w.st.connections.map Prod.fst = w.openIds
  ∧ w.openIds.Nodup
  ∧ ∀ i ∈ w.openIds, i < w.st.nextId

/-- Every adapter transition preserves the registry invariant. -/
theorem adapterStep_good (w : AdapterWorld) (e : SockEvent) :
    GoodWorld w → GoodWorld (adapterStep w e) := by
  rintro ⟨hkeys, hnd, hlt⟩
  have hremove : ∀ i, i ∈ w.openIds →
      GoodWorld { st := removeConn w.st i, openIds := w.openIds.erase i } := by
    intro i _
    refine ⟨?_, hnd.erase i, ?_⟩
    · show (w.st.connections.filter (fun e => e.1 != i)).map Prod.fst = w.openIds.erase i
      rw [map_fst_filter_ne, hkeys, hnd.erase_eq_filter]
    · intro j hj
      exact hlt j (List.mem_of_mem_erase hj)
  cases e with
  | connect =>
      have hfresh : w.st.nextId ∉ w.openIds := fun hmem => absurd (hlt _ hmem) (by omega)
      refine ⟨by simp [adapterStep, hkeys], ?_, ?_⟩
      · show (w.st.nextId :: w.openIds).Nodup
        exact List.nodup_cons.mpr ⟨hfresh, hnd⟩
      intro i hi
      rcases List.mem_cons.1 hi with rfl | hi
      · simp [adapterStep]
      · simp only [adapterStep]
        exact Nat.lt_trans (hlt i hi) (Nat.lt_succ_self _)
  | close i =>
      by_cases hi : i ∈ w.openIds
      · simpa [adapterStep, hi] using hremove i hi
      · simpa [adapterStep, hi] using ⟨hkeys, hnd, hlt⟩
  | sockError i =>
      by_cases hi : i ∈ w.openIds
      · simpa [adapterStep, hi] using hremove i hi
      · simpa [adapterStep, hi] using ⟨hkeys, hnd, hlt⟩

/-- The invariant holds along any event sequence. -/
theorem runAdapter_good (es : List SockEvent) :
    ∀ w, GoodWorld w → GoodWorld (runAdapter w es) := by
  induction es with
  | nil => intro w h; exact h
  | cons e es ih =>
      intro w h
      simpa [runAdapter, List.foldl_cons] using ih (adapterStep w e) (adapterStep_good w e h)

/-- C9: after any sequence of connect/close/error socket events from the
initial adapter state, the connections Map holds exactly the still-open
connections: its keys are precisely the open socket ids, and every key is
unique (fresh at insertion). -/
theorem registry_live_c9 (es : List SockEvent) :
    ((runAdapter initWorld es).st.connections.map Prod.fst = (runAdapter initWorld es).openIds)
    ∧ ((runAdapter initWorld es).st.connections.map Prod.fst).Nodup
    ∧ (∀ i, (∃ c, (i, c) ∈ (runAdapter initWorld es).st.connections)
        ↔ i ∈ (runAdapter initWorld es).openIds) := by
  have hinit : GoodWorld initWorld := ⟨rfl, List.nodup_nil, by intro i hi; cases hi⟩
  have hg := runAdapter_good es initWorld hinit
  refine ⟨hg.1, hg.1 ▸ hg.2.1, ?_⟩
  intro i
  rw [← mem_map_fst, hg.1]

/-- No pending timer: flushing is a no-op. -/
theorem flushPending_none {s : TrigState} (t : Nat) (h : s.pendingDebounce = none) :
    flushPending s t = (s, []) := by
  simp [flushPending, h]

/-- A pending timer strictly in the future does not fire yet. -/
theorem flushPending_wait {s : TrigState} {tf : Nat} {u : String} (t : Nat)
    (h : s.pendingDebounce = some (tf, u)) (hlt : t < tf) :
    flushPending s t = (s, []) := by
  simp only [flushPending, h]
  rw [if_neg (by omega)]

/-- C3: with `throttle:100ms`, qualifying events at 0, 50, 100 and 150 ms
emit exactly two requests, at t=0 and t=100; and in general an event
within the throttle window of the last emission is dropped outright: no
emission, no queued timer, and the emission clock untouched. -/
theorem throttle_drops_c3 :
    (parseTrigger "input throttle:100ms"
      = .ok [⟨"input".toList, none, { noMods with throttleMs := some 100 }⟩])
    ∧ ((runEvents { noMods with throttleMs := some 100 } initTrigState
        [(0, "a"), (50, "b"), (100, "c"), (150, "d")]).2 = [(0, "a"), (100, "c")])
    ∧ (∀ (m : TrigMods) (s : TrigState) (t te T : Nat) (v : String),
        m.throttleMs = some T → s.pendingDebounce = none → s.lastEmit = some te →
        t < te + T →
        (stepEvent m s t v).2 = [] ∧ (stepEvent m s t v).1.lastEmit = some te ∧
        (stepEvent m s t v).1.pendingDebounce = none) := by
  refine ⟨by rfl, by decide, ?_⟩
  intro m s t te T v hth hpend hemit hlt
  have hfl : flushPending s t = (s, []) := flushPending_none t hpend
  have hcore : (stepCore m s t v).2 = [] ∧ (stepCore m s t v).1.lastEmit = some te ∧
      (stepCore m s t v).1.pendingDebounce = none := by
    simp only [stepCore]
    split_ifs with h1 h2
    · exact ⟨rfl, hemit, hpend⟩
    · exact ⟨rfl, hemit, hpend⟩
    · rw [hth]
      have he2 : ({ s with lastValue := some v } : TrigState).lastEmit = some te := hemit
      rw [he2]
      simp [hlt, hpend]
  simp [stepEvent, hfl, hcore.1, hcore.2.1, hcore.2.2]

/-- Witness for C3: a concrete throttled state drops an in-window event. -/
theorem throttle_drops_c3_witness :
    (stepEvent { noMods with throttleMs := some 100 }
        ⟨some "a", true, some 0, none⟩ 50 "b").2 = [] ∧
    (stepEvent { noMods with throttleMs := some 100 }
        ⟨some "a", true, some 0, none⟩ 50 "b").1.lastEmit = some 0 ∧
    (stepEvent { noMods with throttleMs := some 100 }
        ⟨some "a", true, some 0, none⟩ 50 "b").1.pendingDebounce = none :=
  throttle_drops_c3.2.2 { noMods with throttleMs := some 100 }
    ⟨some "a", true, some 0, none⟩ 50 0 100 "b" rfl rfl rfl (by decide)

/-- C4: with `queue:100ms` (debounce), qualifying events at 0, 50 and 100
ms emit exactly one request, at t=200 with the last event's value; and in
general every qualifying event restarts the timer, replacing any pending
deadline with its own. -/
theorem debounce_last_c4 :
    (parseTrigger "input queue:100ms"
      = .ok [⟨"input".toList, none, { noMods with debounceMs := some 100 }⟩])
    ∧ ((runEvents { noMods with debounceMs := some 100 } initTrigState
        [(0, "a"), (50, "b"), (100, "c")]).2 = [(200, "c")])
    ∧ (∀ (m : TrigMods) (s : TrigState) (t T : Nat) (v : String),
        m.debounceMs = some T → m.throttleMs = none →
        m.once = false → m.changedOnly = false →
        (∀ tf u, s.pendingDebounce = some (tf, u) → t < tf) →
        (stepEvent m s t v).1.pendingDebounce = some (t + T, v) ∧
        (stepEvent m s t v).2 = []) := by
  refine ⟨by rfl, by decide, ?_⟩
  intro m s t T v hq hth ho hch hpend
  have hfl : flushPending s t = (s, []) := by
    cases hp : s.pendingDebounce with
    | none => exact flushPending_none t hp
    | some p => exact flushPending_wait t hp (hpend p.1 p.2 (by rw [hp]))
  have hcore : (stepCore m s t v).1.pendingDebounce = some (t + T, v) ∧
      (stepCore m s t v).2 = [] := by
    simp only [stepCore]
    rw [if_neg (by simp [hch]), if_neg (by simp [ho]), hth, hq]
    exact ⟨rfl, rfl⟩
  simp [stepEvent, hfl, hcore.1, hcore.2]

/-- Witness for C4: a concrete event restarts a concrete pending timer. -/
theorem debounce_last_c4_witness :
    (stepEvent { noMods with debounceMs := some 100 }
        ⟨some "a", false, none, some (150, "a")⟩ 100 "c").1.pendingDebounce
      = some (200, "c") ∧
    (stepEvent { noMods with debounceMs := some 100 }
        ⟨some "a", false, none, some (150, "a")⟩ 100 "c").2 = [] :=
  debounce_last_c4.2.2 { noMods with debounceMs := some 100 }
    ⟨some "a", false, none, some (150, "a")⟩ 100 100 "c" rfl rfl rfl rfl
    (by intro tf u h; simp at h; omega)

/-- A flush that emitted has latched `firedOnce`. -/
theorem flushPending_fired (s : TrigState) (t : Nat) :
    (flushPending s t).2 ≠ [] → (flushPending s t).1.firedOnce = true := by
  intro h
  simp only [flushPending] at h ⊢
  rcases hp : s.pendingDebounce with _ | ⟨tf, u⟩ <;> simp only [hp] at h ⊢
  · simp at h
  · split_ifs at h ⊢ with hle
    · rfl
    · simp at h

/-- The gating core latches `firedOnce` whenever it emits. -/
theorem stepCore_latch (m : TrigMods) (s1 : TrigState) (t : Nat) (v : String) :
    (stepCore m s1 t v).2 ≠ [] → (stepCore m s1 t v).1.firedOnce = true := by
  obtain ⟨mt, md, mdl, mo, mc, mi, ms⟩ := m
  obtain ⟨lv, fo, le, pd⟩ := s1
  intro hne
  simp only [stepCore] at hne ⊢
  split_ifs at hne ⊢ <;>
    rcases mt with _ | T <;> rcases md with _ | Td <;> rcases mdl with _ | D <;>
    rcases le with _ | te <;> simp_all <;> split_ifs at hne ⊢ <;> simp_all

/-- The gating core never clears a latched `firedOnce`. -/
theorem stepCore_preserve (m : TrigMods) (s1 : TrigState) (t : Nat) (v : String)
    (h : s1.firedOnce = true) : (stepCore m s1 t v).1.firedOnce = true := by
  obtain ⟨mt, md, mdl, mo, mc, mi, ms⟩ := m
  obtain ⟨lv, fo, le, pd⟩ := s1
  simp only at h
  subst h
  simp only [stepCore]
  split_ifs <;>
    rcases mt with _ | T <;> rcases md with _ | Td <;> rcases mdl with _ | D <;>
    rcases le with _ | te <;> simp_all <;> split_ifs <;> simp_all

/-- Every emission latches `firedOnce`. -/
theorem stepEvent_emit_latch (m : TrigMods) (s : TrigState) (t : Nat) (v : String) :
    (stepEvent m s t v).2 ≠ [] → (stepEvent m s t v).1.firedOnce = true := by
  intro hne
  by_cases hc : (stepCore m (flushPending s t).1 t v).2 = []
  · have hfl2 : (flushPending s t).2 ≠ [] := by
      intro h0
      apply hne
      simp [stepEvent, h0, hc]
    have h1 := flushPending_fired s t hfl2
    have h2 := stepCore_preserve m (flushPending s t).1 t v h1
    simpa [stepEvent] using h2
  · have h2 := stepCore_latch m (flushPending s t).1 t v hc
    simpa [stepEvent] using h2

/-- An already-fired `once` state handles any further event without any
emission, keeping the latch and leaving no timer. -/
theorem stepEvent_once_inert (m : TrigMods) (s : TrigState) (t : Nat) (v : String)
    (ho : m.once = true) (hf : s.firedOnce = true) (hp : s.pendingDebounce = none) :
    (stepEvent m s t v).2 = [] ∧ (stepEvent m s t v).1.firedOnce = true ∧
    (stepEvent m s t v).1.pendingDebounce = none := by
  have hfl : flushPending s t = (s, []) := flushPending_none t hp
  have hcore : (stepCore m s t v).2 = [] ∧ (stepCore m s t v).1.firedOnce = true ∧
      (stepCore m s t v).1.pendingDebounce = none := by
    simp only [stepCore]
    split_ifs with h1 h2
    · exact ⟨rfl, hf, hp⟩
    · exact ⟨rfl, hf, hp⟩
    · exact absurd ⟨ho, hf⟩ h2
  simp [stepEvent, hfl, hcore.1, hcore.2.1, hcore.2.2]

/-- An already-fired `once` state stays inert over any event trace. -/
theorem runEvents_once_inert (m : TrigMods) (ho : m.once = true) :
    ∀ (evs : List (Nat × String)) (s : TrigState),
      s.firedOnce = true → s.pendingDebounce = none →
      (runEvents m s evs).2 = [] ∧ (runEvents m s evs).1.firedOnce = true ∧
      (runEvents m s evs).1.pendingDebounce = none := by
  intro evs
  induction evs with
  | nil =>
      intro s hf hp
      simp [runEvents, hp, hf]
  | cons ev rest ih =>
      intro s hf hp
      obtain ⟨t, v⟩ := ev
      have hstep := stepEvent_once_inert m s t v ho hf hp
      have hrest := ih (stepEvent m s t v).1 hstep.2.1 hstep.2.2
      simp only [runEvents]
      exact ⟨by simp [hstep.1, hrest.1], hrest.2.1, hrest.2.2⟩

/-- C5: a descriptor with the `once` modifier emits its first request and
then becomes permanently inert: any emission latches `firedOnce`, and a
latched state emits nothing over any further trace of qualifying events,
with the latch staying true. -/
theorem once_permanently_inert_c5 :
    (parseTrigger "click once" = .ok [⟨"click".toList, none, { noMods with once := true }⟩])
    ∧ (∀ (m : TrigMods) (s : TrigState) (t : Nat) (v : String),
        (stepEvent m s t v).2 ≠ [] → (stepEvent m s t v).1.firedOnce = true)
    ∧ (∀ (m : TrigMods) (s : TrigState) (evs : List (Nat × String)),
        m.once = true → s.firedOnce = true → s.pendingDebounce = none →
        (runEvents m s evs).2 = [] ∧ (runEvents m s evs).1.firedOnce = true) := by
  refine ⟨by rfl, stepEvent_emit_latch, ?_⟩
  intro m s evs ho hf hp
  have h := runEvents_once_inert m ho evs s hf hp
  exact ⟨h.1, h.2.1⟩

/-- Witness for C5: after a first click fired, two further clicks emit
nothing and the latch stays set. -/
theorem once_permanently_inert_c5_witness :
    (runEvents { noMods with once := true } ⟨some "a", true, some 0, none⟩
        [(5, "b"), (9, "c")]).2 = [] ∧
    (runEvents { noMods with once := true } ⟨some "a", true, some 0, none⟩
        [(5, "b"), (9, "c")]).1.firedOnce = true :=
  once_permanently_inert_c5.2.2 { noMods with once := true }
    ⟨some "a", true, some 0, none⟩ [(5, "b"), (9, "c")] rfl rfl rfl

/-! ### Round trip of the trigger grammar: digit and duration lemmas -/

/-- Digit characters read back the digit they encode. -/
theorem digitVal_toDigitChar {d : Nat} (h : d < 10) : digitVal (toDigitChar d) = some d := by
  interval_cases d <;> decide

/-- The accumulating decimal reader distributes over append. -/
theorem charsToNatAux_append (xs ys : List Char) :
    ∀ acc : Nat, charsToNatAux (xs ++ ys) acc
      = (charsToNatAux xs acc).bind (fun a => charsToNatAux ys a) := by
  induction xs with
  | nil => intro acc; rfl
  | cons c cs ih =>
      intro acc
      simp only [List.cons_append, charsToNatAux]
      cases h : digitVal c with
      | none => rfl
      | some d => exact ih (acc * 10 + d)

/-- Reading back the reversed digit list recovers the number, shifted by
the accumulator. -/
theorem charsToNatAux_revDigits (n : Nat) :
    ∀ acc : Nat, charsToNatAux ((natToRevDigits n).reverse) acc
      = some (acc * 10 ^ (natToRevDigits n).length + n) := by
  induction n using Nat.strong_induction_on with
  | _ n ih =>
      match n with
      | 0 => intro acc; simp [natToRevDigits, charsToNatAux]
      | Nat.succ k =>
          intro acc
          have hq : (k + 1) / 10 < k + 1 := Nat.div_lt_self (Nat.succ_pos k) (by norm_num)
          have hrec := ih ((k + 1) / 10) hq acc
          have hd : digitVal (toDigitChar ((k + 1) % 10)) = some ((k + 1) % 10) :=
            digitVal_toDigitChar (Nat.mod_lt _ (by norm_num))
          simp only [natToRevDigits, List.reverse_cons, List.length_cons]
          rw [charsToNatAux_append, hrec]
          simp only [Option.some_bind, charsToNatAux, hd]
          congr 1
          rw [pow_succ]
          have h2 : (k + 1) / 10 * 10 + (k + 1) % 10 = k + 1 := by omega
          calc (acc * 10 ^ (natToRevDigits ((k + 1) / 10)).length + (k + 1) / 10) * 10
                + (k + 1) % 10
              = acc * (10 ^ (natToRevDigits ((k + 1) / 10)).length * 10)
                + ((k + 1) / 10 * 10 + (k + 1) % 10) := by ring
            _ = acc * (10 ^ (natToRevDigits ((k + 1) / 10)).length * 10) + (k + 1) := by
                rw [h2]

/-- A positive number has at least one digit. -/
theorem natToRevDigits_ne_nil {n : Nat} (h : n ≠ 0) : natToRevDigits n ≠ [] := by
  match n with
  | 0 => exact absurd rfl h
  | k + 1 => simp [natToRevDigits]

/-- The decimal reader inverts the decimal renderer. -/
theorem charsToNat_natToChars (n : Nat) : charsToNat (natToChars n) = some n := by
  by_cases h : n = 0
  · subst h; rfl
  · have hne := natToRevDigits_ne_nil h
    have hrev : (natToRevDigits n).reverse ≠ [] := by simpa using hne
    obtain ⟨c, cs, hcs⟩ := List.exists_cons_of_ne_nil hrev
    have haux := charsToNatAux_revDigits n 0
    rw [hcs] at haux
    simp only [natToChars, if_neg h, hcs, charsToNat]
    rw [haux]
    simp

/-- Parsing inverts the canonical duration rendering. -/
theorem parseDuration_durChars (n : Nat) : parseDuration (durChars n) = .ok n := by
  have h1 : (durChars n).reverse = 's' :: 'm' :: (natToChars n).reverse := by
    simp [durChars]
  simp only [parseDuration, h1, List.reverse_reverse, charsToNat_natToChars n]

/-! ### Splitter lemmas -/

/-- A list all of whose elements satisfy `p` is its own `takeWhile`. -/
theorem takeWhile_all {p : Char → Bool} : ∀ {l : List Char}, (∀ x ∈ l, p x) → l.takeWhile p = l
  | [], _ => rfl
  | c :: cs, h => by
      have hc : p c := h c (by simp)
      simp only [List.takeWhile_cons, hc, if_true]
      rw [takeWhile_all (fun x hx => h x (by simp [hx]))]

/-- A list all of whose elements satisfy `p` has empty `dropWhile`. -/
theorem dropWhile_all {p : Char → Bool} : ∀ {l : List Char}, (∀ x ∈ l, p x) → l.dropWhile p = []
  | [], _ => rfl
  | c :: cs, h => by
      have hc : p c := h c (by simp)
      simp only [List.dropWhile_cons, hc, if_true]
      exact dropWhile_all (fun x hx => h x (by simp [hx]))

/-- `takeWhile` stops exactly at the first failing element. -/
theorem takeWhile_append_stop {p : Char → Bool} {xs : List Char} {c : Char}
    (h : ∀ x ∈ xs, p x) (hc : p c = false) (ys : List Char) :
    (xs ++ c :: ys).takeWhile p = xs ∧ (xs ++ c :: ys).dropWhile p = c :: ys := by
  induction xs with
  | nil => simp [List.takeWhile_cons, List.dropWhile_cons, hc]
  | cons a as ih =>
      have ha : p a := h a (by simp)
      have ih2 := ih (fun x hx => h x (by simp [hx]))
      simp only [List.cons_append, List.takeWhile_cons, List.dropWhile_cons, ha, if_true]
      exact ⟨by rw [ih2.1], ih2.2⟩

/-- Empty `dropWhile` means every element satisfied `p`. -/
theorem dropWhile_nil_all {p : Char → Bool} : ∀ {l : List Char}, l.dropWhile p = [] →
    ∀ x ∈ l, p x
  | [], _, x, hx => absurd hx (by simp)
  | c :: cs, h, x, hx => by
      by_cases hc : p c
      · simp only [List.dropWhile_cons, hc, if_true] at h
        rcases List.mem_cons.1 hx with rfl | hx2
        · exact hc
        · exact dropWhile_nil_all h x hx2
      · simp [List.dropWhile_cons, hc] at h

/-- The head surviving `dropWhile` fails `p`. -/
theorem dropWhile_head_false {p : Char → Bool} : ∀ {l : List Char} {c : Char} {k : List Char},
    l.dropWhile p = c :: k → p c = false
  | [], c, k, h => by simp at h
  | a :: as, c, k, h => by
      by_cases ha : p a
      · simp only [List.dropWhile_cons, ha, if_true] at h
        exact dropWhile_head_false h
      · simp only [List.dropWhile_cons, ha, if_false] at h
        cases h
        simpa using ha

/-- Elements of `takeWhile` satisfy `p` and come from the list. -/
theorem mem_takeWhile_mem_pred {p : Char → Bool} : ∀ {l : List Char} {x : Char},
    x ∈ l.takeWhile p → x ∈ l ∧ p x
  | [], x, h => absurd h (by simp)
  | c :: cs, x, h => by
      by_cases hc : p c
      · simp only [List.takeWhile_cons, hc, if_true] at h
        rcases List.mem_cons.1 h with rfl | h2
        · exact ⟨by simp, hc⟩
        · have := mem_takeWhile_mem_pred h2
          exact ⟨by simp [this.1], this.2⟩
      · simp [List.takeWhile_cons, hc] at h

/-- Elements of `dropWhile` come from the list. -/
theorem mem_dropWhile_mem {p : Char → Bool} : ∀ {l : List Char} {x : Char},
    x ∈ l.dropWhile p → x ∈ l
  | [], x, h => absurd h (by simp)
  | c :: cs, x, h => by
      by_cases hc : p c
      · simp only [List.dropWhile_cons, hc, if_true] at h
        exact by simp [mem_dropWhile_mem h]
      · simp only [List.dropWhile_cons, hc, if_false] at h
        exact h

/-- `splitSep` never returns the empty fragment list. -/
theorem splitSep_ne_nil (sep : Char) : ∀ cs, splitSep sep cs ≠ []
  | [] => by simp [splitSep]
  | c :: cs => by
      simp only [splitSep]
      split_ifs
      · simp
      · cases h : splitSep sep cs with
        | nil => simp
        | cons x xs => simp

/-- Splitting a separator-free list yields that one fragment. -/
theorem splitSep_no_sep {sep : Char} : ∀ {cs : List Char}, sep ∉ cs → splitSep sep cs = [cs]
  | [], _ => rfl
  | c :: cs, h => by
      have hc : ¬(c = sep) := fun hcc => h (by rw [hcc]; exact List.mem_cons_self sep cs)
      have hmem : sep ∉ cs := fun hm => h (List.mem_cons_of_mem c hm)
      simp only [splitSep, if_neg hc, splitSep_no_sep hmem]

/-- Splitting a list with a leading separator-free block peels it off. -/
theorem splitSep_append {sep : Char} : ∀ {xs : List Char}, sep ∉ xs → ∀ ys,
    splitSep sep (xs ++ sep :: ys) = xs :: splitSep sep ys
  | [], _, ys => by simp [splitSep]
  | x :: xs, h, ys => by
      have hx : ¬(x = sep) := fun hcc => h (by rw [hcc]; exact List.mem_cons_self sep xs)
      have hmem : sep ∉ xs := fun hm => h (List.mem_cons_of_mem x hm)
      simp only [List.cons_append, splitSep, if_neg hx, List.append_eq, splitSep_append hmem ys]

/-- Fragments contain no separator. -/
theorem mem_splitSep_no_sep {sep : Char} : ∀ {cs : List Char} {l : List Char},
    l ∈ splitSep sep cs → sep ∉ l := by
  intro cs
  induction cs with
  | nil =>
      intro l hl
      simp [splitSep] at hl
      simp [hl]
  | cons c cs ih =>
      intro l hl
      simp only [splitSep] at hl
      split_ifs at hl with hc
      · rcases List.mem_cons.1 hl with rfl | h2
        · simp
        · exact ih h2
      · cases hsp : splitSep sep cs with
        | nil => exact absurd hsp (splitSep_ne_nil sep cs)
        | cons x xs =>
            rw [hsp] at hl
            rcases List.mem_cons.1 hl with rfl | h2
            · intro hm
              rcases List.mem_cons.1 hm with rfl | h3
              · exact hc rfl
              · exact ih (by simp [hsp]) h3
            · exact ih (by simp [hsp, h2])

/-- Fragment characters come from the split list. -/
theorem mem_splitSep_mem {sep : Char} : ∀ {cs : List Char} {l : List Char} {c : Char},
    l ∈ splitSep sep cs → c ∈ l → c ∈ cs := by
  intro cs
  induction cs with
  | nil =>
      intro l c hl hc
      simp [splitSep] at hl
      subst hl
      simp at hc
  | cons a as ih =>
      intro l c hl hc
      simp only [splitSep] at hl
      split_ifs at hl with ha
      · rcases List.mem_cons.1 hl with rfl | h2
        · simp at hc
        · simp [ih h2 hc]
      · cases hsp : splitSep sep as with
        | nil => exact absurd hsp (splitSep_ne_nil sep as)
        | cons x xs =>
            rw [hsp] at hl
            rcases List.mem_cons.1 hl with rfl | h2
            · rcases List.mem_cons.1 hc with rfl | h3
              · simp
              · simp [ih (by simp [hsp]) h3]
            · simp [ih (by simp [hsp, h2]) hc]

/-- Characters of a join are a fragment character or the separator. -/
theorem mem_joinSep (sep : Char) : ∀ (parts : List (List Char)) (c : Char),
    c ∈ joinSep sep parts → c = sep ∨ ∃ p_ ∈ parts, c ∈ p_
  | [], c, h => by simp [joinSep] at h
  | [x], c, h => by
      simp only [joinSep] at h
      exact Or.inr ⟨x, by simp, h⟩
  | x :: y :: xs, c, h => by
      simp only [joinSep, List.mem_append, List.mem_cons] at h
      rcases h with h | h | h
      · exact Or.inr ⟨x, by simp, h⟩
      · exact Or.inl h
      · rcases mem_joinSep sep (y :: xs) c h with h2 | ⟨p_, hp1, hp2⟩
        · exact Or.inl h2
        · exact Or.inr ⟨p_, by simp [List.mem_cons.1 hp1], hp2⟩

/-- Splitting inverts joining when no fragment holds the separator. -/
theorem splitSep_joinSep (sep : Char) : ∀ (parts : List (List Char)), parts ≠ [] →
    (∀ p_ ∈ parts, sep ∉ p_) → splitSep sep (joinSep sep parts) = parts
  | [], h, _ => absurd rfl h
  | [x], _, hs => by
      simp only [joinSep]
      exact splitSep_no_sep (hs x (by simp))
  | x :: y :: xs, _, hs => by
      simp only [joinSep]
      rw [splitSep_append (hs x (by simp))]
      rw [splitSep_joinSep sep (y :: xs) (by simp)
        (fun q hq => hs q (by simp [List.mem_cons.1 hq]))]

/-! ### Traversal and prefix lemmas -/

/-- A successful traversal succeeded on every element. -/
theorem mapExcept_ok_forall {α β : Type} {f : α → Except String β} :
    ∀ {xs : List α} {ys : List β}, mapExcept f xs = .ok ys →
      ∀ y ∈ ys, ∃ x ∈ xs, f x = .ok y := by
  intro xs
  induction xs with
  | nil =>
      intro ys h y hy
      simp only [mapExcept] at h
      cases h
      simp at hy
  | cons x xs ih =>
      intro ys h y hy
      simp only [mapExcept] at h
      cases hfx : f x with
      | error e => rw [hfx] at h; simp [Except.bind] at h
      | ok y0 =>
          rw [hfx] at h
          cases hm : mapExcept f xs with
          | error e => rw [hm] at h; simp [Except.bind, Except.map] at h
          | ok ys0 =>
              rw [hm] at h
              simp only [Except.bind, Except.map, Except.ok.injEq] at h
              subst h
              rcases List.mem_cons.1 hy with rfl | h2
              · exact ⟨x, by simp, hfx⟩
              · rcases ih hm y h2 with ⟨x2, hx2, hfx2⟩
                exact ⟨x2, by simp [hx2], hfx2⟩

/-- A successful traversal of a nonempty list is nonempty. -/
theorem mapExcept_ok_ne_nil {α β : Type} {f : α → Except String β} {x : α} {xs : List α}
    {ys : List β} (h : mapExcept f (x :: xs) = .ok ys) : ys ≠ [] := by
  simp only [mapExcept] at h
  cases hfx : f x with
  | error e => rw [hfx] at h; simp [Except.bind] at h
  | ok y0 =>
      rw [hfx] at h
      cases hm : mapExcept f xs with
      | error e => rw [hm] at h; simp [Except.bind, Except.map] at h
      | ok ys0 =>
          rw [hm] at h
          simp only [Except.bind, Except.map, Except.ok.injEq] at h
          subst h
          simp

/-- Traversing a rendered list recovers it when each element round-trips. -/
theorem mapExcept_map_ok {α β : Type} {f : α → Except String β} {g : β → α} :
    ∀ {xs : List β}, (∀ x ∈ xs, f (g x) = .ok x) → mapExcept f (xs.map g) = .ok xs
  | [], _ => rfl
  | x :: xs, h => by
      have hx := h x (by simp)
      have hrest := mapExcept_map_ok (f := f) (g := g)
        (fun q hq => h q (List.mem_cons_of_mem x hq))
      simp only [List.map_cons, mapExcept, hx, hrest, Except.bind, Except.map]

/-- A list is prefixed by itself before any suffix. -/
theorem hasPrefix_append_self : ∀ (l t : List Char), hasPrefix l (l ++ t) = true
  | [], _ => rfl
  | a :: as, t => by simp [hasPrefix, hasPrefix_append_self as t]

/-- A verified prefix splits the list after its length. -/
theorem hasPrefix_drop : ∀ {l cs : List Char}, hasPrefix l cs = true →
    cs = l ++ cs.drop l.length
  | [], cs, _ => by simp
  | a :: as, [], h => by simp [hasPrefix] at h
  | a :: as, b :: bs, h => by
      simp only [hasPrefix] at h
      split_ifs at h with hab
      subst hab
      simpa using hasPrefix_drop h

/-! ### Character classes of rendered tokens -/

/-- A character with a digit value is a decimal digit, hence none of the
grammar's separator characters. -/
theorem digitVal_good {c : Char} {d : Nat} (h : digitVal c = some d) :
    c ≠ ',' ∧ c ≠ ' ' ∧ c ≠ ':' ∧ c ≠ '[' ∧ c ≠ ']' := by
  unfold digitVal at h
  split_ifs at h with hc
  · obtain ⟨h1, h2⟩ := hc
    refine ⟨?_, ?_, ?_, ?_, ?_⟩ <;> intro hcc <;> subst hcc
    · exact absurd h1 (by decide)
    · exact absurd h1 (by decide)
    · exact absurd h2 (by decide)
    · exact absurd h2 (by decide)
    · exact absurd h2 (by decide)

/-- Every character of the digit rendering is a digit. -/
theorem mem_natToRevDigits_digit (n : Nat) :
    ∀ c ∈ natToRevDigits n, ∃ d, digitVal c = some d := by
  induction n using Nat.strong_induction_on with
  | _ n ih =>
      match n with
      | 0 => intro c hc; simp [natToRevDigits] at hc
      | Nat.succ k =>
          intro c hc
          simp only [natToRevDigits, List.mem_cons] at hc
          rcases hc with rfl | hc
          · exact ⟨(k + 1) % 10, digitVal_toDigitChar (Nat.mod_lt _ (by norm_num))⟩
          · exact ih ((k + 1) / 10) (Nat.div_lt_self (Nat.succ_pos k) (by norm_num)) c hc

/-- Characters of the canonical decimal rendering are digits. -/
theorem mem_natToChars_digit {n : Nat} {c : Char} (h : c ∈ natToChars n) :
    ∃ d, digitVal c = some d := by
  by_cases h0 : n = 0
  · subst h0
    simp [natToChars] at h
    exact ⟨0, by rw [h]; rfl⟩
  · simp only [natToChars, if_neg h0, List.mem_reverse] at h
    exact mem_natToRevDigits_digit n c h

/-- Characters of a duration rendering avoid the grammar separators. -/
theorem mem_durChars_good {n : Nat} {c : Char} (h : c ∈ durChars n) :
    c ≠ ',' ∧ c ≠ ' ' := by
  simp only [durChars, List.mem_append, List.mem_cons] at h
  rcases h with h | rfl | h
  · have := digitVal_good (mem_natToChars_digit h).choose_spec
    exact ⟨this.1, this.2.1⟩
  · exact ⟨by decide, by decide⟩
  · simp at h
    subst h
    exact ⟨by decide, by decide⟩

/-! ### Well-formedness of parsed descriptors -/

/-- Token material holds no comma and no space. -/
def noSep (cs : List Char) : Prop := ∀ ch ∈ cs, ch ≠ ',' ∧ ch ≠ ' '

/-- Structural well-formedness of a condition, as guaranteed by the
parser's branch order and guards. -/
def WFCond : TrigCond → Prop
  | .keyName k => k ≠ [] ∧ '+' ∉ k ∧ k ≠ "value".toList ∧ k ≠ "checked".toList
      ∧ hasPrefix "value='".toList k = false
  | .modKey m k => m ≠ [] ∧ k ≠ [] ∧ '+' ∉ m
      ∧ hasPrefix "value='".toList (m ++ '+' :: k) = false
  | .valuePresent => True
  | .checkedCond => True
  | .valueEquals _ => True

/-- Well-formedness of a modifier record: `throttle` and `queue` are
mutually exclusive, and a stored intersect ratio is a nonempty token. -/
def WFMods (r : TrigMods) : Prop :=
  ¬(r.throttleMs.isSome ∧ r.debounceMs.isSome)
  ∧ ∀ ri, r.intersect = some (some ri) → ri ≠ [] ∧ noSep ri

/-- Well-formedness of one alternate. -/
def WFSpec (sp : TrigSpec) : Prop :=
  sp.eventName ≠ [] ∧ noSep sp.eventName ∧ '[' ∉ sp.eventName
  ∧ (∀ c, sp.cond = some c → WFCond c ∧ noSep (condToChars c) ∧ ']' ∉ condToChars c)
  ∧ WFMods sp.mods

/-- Well-formedness of a descriptor. -/
def WFDesc (d : TrigDescriptor) : Prop := d ≠ [] ∧ ∀ sp ∈ d, WFSpec sp

/-- Two lists differ when a character separates their memberships. -/
theorem ne_of_mem_not_mem {a : Char} {xs ys : List Char} (h1 : a ∈ xs) (h2 : a ∉ ys) :
    xs ≠ ys := fun he => h2 (he ▸ h1)

/-- Parsing inverts condition serialization on well-formed conditions. -/
theorem parseCond_condToChars (c : TrigCond) (h : WFCond c) :
    parseCond (condToChars c) = .ok c := by
  cases c with
  | valuePresent => rfl
  | checkedCond => rfl
  | valueEquals lit =>
      have h1 : ("value='".toList ++ lit ++ ['\'']) ≠ "value".toList := by
        intro heq
        have := congrArg List.length heq
        simp at this
      have h2 : ("value='".toList ++ lit ++ ['\'']) ≠ "checked".toList := by
        intro heq
        have := congrArg List.length heq
        simp at this
      have h3 : hasPrefix "value='".toList ("value='".toList ++ lit ++ ['\'']) = true := by
        rw [List.append_assoc]
        exact hasPrefix_append_self _ _
      have hdrop : ("value='".toList ++ lit ++ ['\'']).drop 7 = lit ++ ['\''] := by
        rw [List.append_assoc]
        have hlen : ("value='".toList).length = 7 := rfl
        rw [← hlen, List.drop_left]
      simp only [condToChars, parseCond, if_neg h1, if_neg h2, h3, if_true, hdrop,
        List.reverse_append, List.reverse_cons, List.reverse_nil, List.nil_append,
        List.singleton_append, List.reverse_reverse]
  | modKey m k =>
      obtain ⟨hm, hk, hplus, hpre⟩ := h
      have hin : ('+' : Char) ∈ m ++ '+' :: k := by simp
      have h1 : (m ++ '+' :: k) ≠ "value".toList := ne_of_mem_not_mem hin (by decide)
      have h2 : (m ++ '+' :: k) ≠ "checked".toList := ne_of_mem_not_mem hin (by decide)
      have hall : ∀ x ∈ m, (fun ch => decide (ch ≠ '+')) x = true := by
        intro x hx
        simp only [decide_eq_true_eq]
        exact fun hxx => hplus (hxx ▸ hx)
      have hstop := @takeWhile_append_stop (fun ch => decide (ch ≠ '+')) m '+' hall (by decide) k
      simp only [condToChars, parseCond, if_neg h1, if_neg h2, hpre, Bool.false_eq_true,
        if_false, hstop.1, hstop.2]
      rw [if_neg (not_or.mpr ⟨hm, hk⟩)]
  | keyName k =>
      obtain ⟨hk, hplus, hv, hc, hpre⟩ := h
      have hdrop : k.dropWhile (fun ch => decide (ch ≠ '+')) = [] := by
        apply dropWhile_all
        intro x hx
        simp only [decide_eq_true_eq]
        exact fun hxx => hplus (hxx ▸ hx)
      simp only [condToChars, parseCond, if_neg hv, if_neg hc, hpre, Bool.false_eq_true,
        if_false, hdrop, if_neg hk]

/-- Well-formedness of one modifier token: a stored intersect ratio is a
nonempty token. -/
def WFModTok : ModTok → Prop
  | .intersectM (some r) => r ≠ []
  | _ => True

/-- Parsing inverts modifier-token serialization. -/
theorem parseModTok_modTokChars (mt : ModTok) (h : WFModTok mt) :
    parseModTok (modTokChars mt) = .ok mt := by
  cases mt with
  | onceM => rfl
  | changedM => rfl
  | scrollM e => cases e <;> rfl
  | intersectM r =>
      cases r with
      | none => rfl
      | some rr =>
          have hall : ∀ x ∈ "intersect".toList, (fun ch => decide (ch ≠ ':')) x = true := by
            decide
          have hstop := @takeWhile_append_stop (fun ch => decide (ch ≠ ':'))
            ("intersect".toList) ':' hall (by decide) rr
          simp only [modTokChars, parseModTok, hstop.2, hstop.1]
          rw [if_pos trivial, if_neg h]
          simp
  | throttle n =>
      have hall : ∀ x ∈ "throttle".toList, (fun ch => decide (ch ≠ ':')) x = true := by
        decide
      have hstop := @takeWhile_append_stop (fun ch => decide (ch ≠ ':'))
        ("throttle".toList) ':' hall (by decide) (durChars n)
      simp only [modTokChars, parseModTok, hstop.2, hstop.1]
      rw [if_pos trivial, parseDuration_durChars]
      rfl
  | queue n =>
      have hall : ∀ x ∈ "queue".toList, (fun ch => decide (ch ≠ ':')) x = true := by
        decide
      have hstop := @takeWhile_append_stop (fun ch => decide (ch ≠ ':'))
        ("queue".toList) ':' hall (by decide) (durChars n)
      simp only [modTokChars, parseModTok, hstop.2, hstop.1]
      rw [if_pos (Or.inl trivial), parseDuration_durChars]
      rfl
  | delay n =>
      have hall : ∀ x ∈ "delay".toList, (fun ch => decide (ch ≠ ':')) x = true := by
        decide
      have hstop := @takeWhile_append_stop (fun ch => decide (ch ≠ ':'))
        ("delay".toList) ':' hall (by decide) (durChars n)
      simp only [modTokChars, parseModTok, hstop.2, hstop.1]
      rw [if_pos trivial, parseDuration_durChars]
      rfl

set_option maxHeartbeats 1000000 in
/-- Folding the canonical modifier token list rebuilds the record. -/
theorem foldMods_modsToList (r : TrigMods) (h : WFMods r) :
    foldMods noMods (modsToList r) = .ok r := by
  obtain ⟨hex, _⟩ := h
  obtain ⟨mt, md, mdl, mo, mc, mi, ms⟩ := r
  rcases mt with _ | T
  · rcases md with _ | Td <;>
      rcases mdl with _ | D <;> cases mo <;> cases mc <;>
      rcases mi with _ | ri <;> rcases ms with _ | e <;>
      simp [modsToList, foldMods, applyModTok, noMods, Except.bind]
  · rcases md with _ | Td
    · rcases mdl with _ | D <;> cases mo <;> cases mc <;>
        rcases mi with _ | ri <;> rcases ms with _ | e <;>
        simp [modsToList, foldMods, applyModTok, noMods, Except.bind]
    · exact absurd (by simp) hex

/-- Filtering empty tokens is the identity on nonempty tokens. -/
theorem filter_not_isEmpty_eq_self : ∀ {ts : List (List Char)}, (∀ t ∈ ts, t ≠ []) →
    ts.filter (fun t => !t.isEmpty) = ts
  | [], _ => rfl
  | t :: ts, h => by
      have ht : t ≠ [] := h t (by simp)
      have ih := filter_not_isEmpty_eq_self (fun q hq => h q (List.mem_cons_of_mem t hq))
      simp [List.filter_cons, ht, ih]

/-- Parsing inverts event-token serialization. -/
theorem parseEventTok_round (ev : List Char) (cond : Option TrigCond)
    (hev : ev ≠ []) (hbr : '[' ∉ ev)
    (hc : ∀ c, cond = some c → WFCond c ∧ ']' ∉ condToChars c) :
    parseEventTok (eventTokChars ev cond) = .ok (ev, cond) := by
  have hall : ∀ x ∈ ev, (fun ch => decide (ch ≠ '[')) x = true := by
    intro x hx
    simp only [decide_eq_true_eq]
    exact fun hxx => hbr (hxx ▸ hx)
  cases cond with
  | none =>
      simp only [eventTokChars, List.append_nil, parseEventTok, takeWhile_all hall,
        dropWhile_all hall, if_neg hev]
  | some c =>
      obtain ⟨hwf, hnb⟩ := hc c rfl
      have hstop := @takeWhile_append_stop (fun ch => decide (ch ≠ '[')) ev '['
        hall (by decide) (condToChars c ++ [']'])
      have hall2 : ∀ x ∈ condToChars c, (fun ch => decide (ch ≠ ']')) x = true := by
        intro x hx
        simp only [decide_eq_true_eq]
        exact fun hxx => hnb (hxx ▸ hx)
      have hstop2 := @takeWhile_append_stop (fun ch => decide (ch ≠ ']')) (condToChars c) ']'
        hall2 (by decide) []
      simp only [eventTokChars, parseEventTok, hstop.1, hstop.2, if_neg hev, hstop2.1,
        hstop2.2, parseCond_condToChars c hwf, Except.map]

/-- Serialized modifier tokens are nonempty. -/
theorem modTokChars_ne_nil (mt : ModTok) : modTokChars mt ≠ [] := by
  cases mt with
  | intersectM r => cases r <;> simp [modTokChars]
  | scrollM e => cases e <;> simp [modTokChars]
  | _ => simp [modTokChars]

/-- Tokens of the canonical modifier list are well formed and avoid the
separators. -/
theorem modsToList_tok_facts {r : TrigMods} (h : WFMods r) :
    ∀ mt ∈ modsToList r, WFModTok mt ∧ ∀ ch ∈ modTokChars mt, ch ≠ ',' ∧ ch ≠ ' ' := by
  obtain ⟨hex, hi⟩ := h
  intro mt hmt
  simp only [modsToList, List.mem_append] at hmt
  have hdur : ∀ (pre : List Char) (n : Nat),
      (∀ ch ∈ pre, ch ≠ ',' ∧ ch ≠ ' ') →
      ∀ ch ∈ pre ++ ':' :: durChars n, ch ≠ ',' ∧ ch ≠ ' ' := by
    intro pre n hpre ch hch
    rcases List.mem_append.1 hch with h1 | h2
    · exact hpre ch h1
    · rcases List.mem_cons.1 h2 with rfl | h3
      · exact ⟨by decide, by decide⟩
      · exact mem_durChars_good h3
  rcases hmt with ((((((h1 | h2) | h3) | h4) | h5) | h6) | h7)
  · cases hT : r.throttleMs with
    | none => rw [hT] at h1; simp at h1
    | some n =>
        rw [hT] at h1
        simp at h1
        subst h1
        exact ⟨trivial, hdur _ n (by decide)⟩
  · cases hT : r.debounceMs with
    | none => rw [hT] at h2; simp at h2
    | some n =>
        rw [hT] at h2
        simp at h2
        subst h2
        exact ⟨trivial, hdur _ n (by decide)⟩
  · cases hT : r.delayMs with
    | none => rw [hT] at h3; simp at h3
    | some n =>
        rw [hT] at h3
        simp at h3
        subst h3
        exact ⟨trivial, hdur _ n (by decide)⟩
  · cases ho : r.once with
    | false => rw [ho] at h4; simp at h4
    | true =>
        rw [ho] at h4
        simp at h4
        subst h4
        exact ⟨trivial, by decide⟩
  · cases hc : r.changedOnly with
    | false => rw [hc] at h5; simp at h5
    | true =>
        rw [hc] at h5
        simp at h5
        subst h5
        exact ⟨trivial, by decide⟩
  · cases hI : r.intersect with
    | none => rw [hI] at h6; simp at h6
    | some ri =>
        rw [hI] at h6
        simp at h6
        subst h6
        cases ri with
        | none => exact ⟨trivial, by decide⟩
        | some rr =>
            have hrr := hi rr hI
            refine ⟨hrr.1, ?_⟩
            intro ch hch
            simp only [modTokChars, List.mem_append, List.mem_cons] at hch
            rcases hch with h1 | rfl | h3
            · exact (by decide : ∀ ch ∈ "intersect".toList, ch ≠ ',' ∧ ch ≠ ' ') ch h1
            · exact ⟨by decide, by decide⟩
            · exact hrr.2 ch h3
  · cases hS : r.scrollEdge with
    | none => rw [hS] at h7; simp at h7
    | some e =>
        rw [hS] at h7
        simp at h7
        subst h7
        cases e <;> exact ⟨trivial, by decide⟩

/-- Tokens of a well-formed alternate avoid the separators. -/
theorem specTokens_good {sp : TrigSpec} (h : WFSpec sp) :
    ∀ t ∈ specTokens sp, ∀ ch ∈ t, ch ≠ ',' ∧ ch ≠ ' ' := by
  obtain ⟨ev, cond, mods⟩ := sp
  obtain ⟨hev, hnosep, hbr, hcond, hmods⟩ := h
  have hfacts := modsToList_tok_facts hmods
  intro t ht ch hch
  simp only [specTokens, List.mem_cons] at ht
  rcases ht with rfl | ht2
  · simp only [eventTokChars] at hch
    rcases List.mem_append.1 hch with h1 | h2
    · exact hnosep ch h1
    · cases cond with
      | none => simp at h2
      | some c =>
          rcases List.mem_cons.1 h2 with rfl | h3
          · exact ⟨by decide, by decide⟩
          · rcases List.mem_append.1 h3 with h4 | h5
            · exact (hcond c rfl).2.1 ch h4
            · simp at h5
              subst h5
              exact ⟨by decide, by decide⟩
  · rcases List.mem_map.1 ht2 with ⟨mt, hmt, rfl⟩
    exact (hfacts mt hmt).2 ch hch

/-- Parsing inverts alternate serialization on well-formed alternates. -/
theorem parseSpecChars_round (sp : TrigSpec) (h : WFSpec sp) :
    parseSpecChars (serializeSpecChars sp) = .ok sp := by
  have hgood := specTokens_good h
  obtain ⟨ev, cond, mods⟩ := sp
  obtain ⟨hev, hnosep, hbr, hcond, hmods⟩ := h
  have hfacts := modsToList_tok_facts hmods
  have htoknn : ∀ t ∈ specTokens ⟨ev, cond, mods⟩, t ≠ [] := by
    intro t ht
    simp only [specTokens, List.mem_cons] at ht
    rcases ht with rfl | ht2
    · simp only [eventTokChars]
      intro hnil
      rcases List.append_eq_nil.1 hnil with ⟨h1, _⟩
      exact hev h1
    · rcases List.mem_map.1 ht2 with ⟨mt, _, rfl⟩
      exact modTokChars_ne_nil mt
  have hnospace : ∀ t ∈ specTokens ⟨ev, cond, mods⟩, ' ' ∉ t := by
    intro t ht hsp
    exact (hgood t ht ' ' hsp).2 rfl
  have hsplit : splitSep ' ' (joinSep ' ' (specTokens ⟨ev, cond, mods⟩))
      = specTokens ⟨ev, cond, mods⟩ :=
    splitSep_joinSep ' ' _ (by simp [specTokens]) hnospace
  simp only [serializeSpecChars, parseSpecChars, splitTokens]
  rw [hsplit, filter_not_isEmpty_eq_self htoknn]
  simp only [specTokens]
  rw [parseEventTok_round ev cond hev hbr (fun c hcc => ⟨(hcond c hcc).1, (hcond c hcc).2.2⟩),
    mapExcept_map_ok (fun mt hmt => parseModTok_modTokChars mt (hfacts mt hmt).1)]
  simp only [Except.bind]
  rw [foldMods_modsToList mods hmods]
  rfl

/-- A serialized alternate contains no comma. -/
theorem serializeSpecChars_no_comma (sp : TrigSpec) (h : WFSpec sp) :
    ',' ∉ serializeSpecChars sp := by
  intro hm
  rcases mem_joinSep ' ' _ ',' hm with h1 | ⟨tok, htok, hch⟩
  · exact absurd h1 (by decide)
  · exact (specTokens_good h tok htok ',' hch).1 rfl

/-- Parsing inverts descriptor serialization on well-formed descriptors. -/
theorem parseTriggerChars_round (d : TrigDescriptor) (h : WFDesc d) :
    parseTriggerChars (serializeTriggerChars d) = .ok d := by
  obtain ⟨hne, hall⟩ := h
  have hnc : ∀ p_ ∈ d.map serializeSpecChars, ',' ∉ p_ := by
    intro p_ hp hm
    rcases List.mem_map.1 hp with ⟨sp, hsp, rfl⟩
    exact serializeSpecChars_no_comma sp (hall sp hsp) hm
  have hmapne : d.map serializeSpecChars ≠ [] := by simp [hne]
  simp only [serializeTriggerChars, parseTriggerChars]
  rw [splitSep_joinSep ',' _ hmapne hnc]
  exact mapExcept_map_ok (fun sp hsp => parseSpecChars_round sp (hall sp hsp))

/-! ### Parse results are well formed -/

/-- A character's membership forces a head on `dropWhile` by inequality. -/
theorem dropWhile_ne_head {a : Char} : ∀ {l : List Char}, a ∈ l →
    ∃ k, l.dropWhile (fun ch => decide (ch ≠ a)) = a :: k := by
  intro l
  induction l with
  | nil => intro h; simp at h
  | cons b bs ih =>
      intro h
      by_cases hb : b = a
      · subst hb
        exact ⟨bs, by simp [List.dropWhile_cons]⟩
      · have hmem : a ∈ bs := by
          rcases List.mem_cons.1 h with rfl | h2
          · exact absurd rfl hb
          · exact h2
        rcases ih hmem with ⟨k, hk⟩
        exact ⟨k, by simpa [List.dropWhile_cons, hb] using hk⟩

/-- A successful condition parse yields a well-formed condition whose
serialization is exactly the input fragment. -/
theorem parseCond_chars {cs : List Char} {c : TrigCond} (h : parseCond cs = .ok c) :
    WFCond c ∧ condToChars c = cs := by
  simp only [parseCond] at h
  by_cases h1 : cs = "value".toList
  · rw [if_pos h1] at h
    injection h with h'
    subst h'
    exact ⟨trivial, h1.symm⟩
  rw [if_neg h1] at h
  by_cases h2 : cs = "checked".toList
  · rw [if_pos h2] at h
    injection h with h'
    subst h'
    exact ⟨trivial, h2.symm⟩
  rw [if_neg h2] at h
  by_cases h3 : hasPrefix "value='".toList cs = true
  · rw [if_pos h3] at h
    split at h
    case _ revLit heq =>
        injection h with h'
        subst h'
        have hcs : cs = "value='".toList ++ cs.drop 7 := hasPrefix_drop h3
        have hdrop : cs.drop 7 = revLit.reverse ++ ['\''] := by
          have h4 := congrArg List.reverse heq
          simpa using h4
        refine ⟨trivial, ?_⟩
        show "value='".toList ++ revLit.reverse ++ ['\''] = cs
        rw [List.append_assoc, ← hdrop]
        exact hcs.symm
    case _ => exact absurd h (by simp)
  · have h3f : hasPrefix "value='".toList cs = false := by simpa using h3
    rw [if_neg h3] at h
    split at h
    case _ k heq =>
        by_cases hg : (cs.takeWhile (fun x => decide (x ≠ '+')) = [] ∨ k = [])
        · rw [if_pos hg] at h
          exact absurd h (by simp)
        · rw [if_neg hg] at h
          injection h with h'
          subst h'
          push_neg at hg
          have hcs : cs.takeWhile (fun ch => decide (ch ≠ '+')) ++ '+' :: k = cs := by
            rw [← heq]
            exact List.takeWhile_append_dropWhile (fun ch => decide (ch ≠ '+')) cs
          have hplus : '+' ∉ cs.takeWhile (fun ch => decide (ch ≠ '+')) := by
            intro hm
            have hpr := (mem_takeWhile_mem_pred hm).2
            simp at hpr
          exact ⟨⟨hg.1, hg.2, hplus, by rw [hcs]; exact h3f⟩, hcs⟩
    case _ l hne =>
        by_cases hg : cs = []
        · rw [if_pos hg] at h
          exact absurd h (by simp)
        · rw [if_neg hg] at h
          injection h with h'
          subst h'
          have hplus : '+' ∉ cs := by
            intro hmem
            rcases dropWhile_ne_head hmem with ⟨k, hk⟩
            exact hne k hk
          exact ⟨⟨hg, hplus, h1, h2, h3f⟩, rfl⟩

/-- A parsed intersect ratio is nonempty and drawn from the input token. -/
theorem parseModTok_intersect {cs : List Char} {mt : ModTok} (h : parseModTok cs = .ok mt) :
    ∀ ri, mt = .intersectM (some ri) → ri ≠ [] ∧ ∀ ch ∈ ri, ch ∈ cs := by
  intro ri hri
  subst hri
  simp only [parseModTok] at h
  split at h
  case _ arg heq =>
      by_cases h1 : cs.takeWhile (fun x => decide (x ≠ ':')) = "throttle".toList
      · rw [if_pos h1] at h
        cases hd : parseDuration arg <;> rw [hd] at h <;> simp [Except.map] at h
      · rw [if_neg h1] at h
        by_cases h2 : cs.takeWhile (fun x => decide (x ≠ ':')) = "queue".toList ∨
            cs.takeWhile (fun x => decide (x ≠ ':')) = "debounce".toList
        · rw [if_pos h2] at h
          cases hd : parseDuration arg <;> rw [hd] at h <;> simp [Except.map] at h
        · rw [if_neg h2] at h
          by_cases h3 : cs.takeWhile (fun x => decide (x ≠ ':')) = "delay".toList
          · rw [if_pos h3] at h
            cases hd : parseDuration arg <;> rw [hd] at h <;> simp [Except.map] at h
          · rw [if_neg h3] at h
            by_cases h4 : cs.takeWhile (fun x => decide (x ≠ ':')) = "intersect".toList
            · rw [if_pos h4] at h
              by_cases h5 : arg = []
              · rw [if_pos h5] at h
                exact absurd h (by simp)
              · rw [if_neg h5] at h
                injection h with h'
                injection h' with h2'
                injection h2' with h3'
                subst h3'
                refine ⟨h5, ?_⟩
                intro ch hch
                have hm : ch ∈ ':' :: arg := List.mem_cons_of_mem ':' hch
                rw [← heq] at hm
                exact mem_dropWhile_mem hm
            · rw [if_neg h4] at h
              exact absurd h (by simp)
  case _ =>
      split_ifs at h <;> simp at h

/-- A successful modifier-token parse is well formed. -/
theorem parseModTok_wftok {cs : List Char} {mt : ModTok} (h : parseModTok cs = .ok mt) :
    WFModTok mt := by
  cases mt with
  | intersectM r =>
      cases r with
      | none => trivial
      | some ri => exact (parseModTok_intersect h ri rfl).1
  | throttle n => trivial
  | queue n => trivial
  | delay n => trivial
  | onceM => trivial
  | changedM => trivial
  | scrollM e => trivial

/-- Folding one well-formed token preserves record well-formedness. -/
theorem applyModTok_wf {r0 : TrigMods} {mt : ModTok} {r1 : TrigMods}
    (h : applyModTok r0 mt = .ok r1) (h0 : WFMods r0)
    (hmt : ∀ ri, mt = .intersectM (some ri) → ri ≠ [] ∧ noSep ri) : WFMods r1 := by
  obtain ⟨hex, hi⟩ := h0
  cases mt with
  | throttle n =>
      simp only [applyModTok] at h
      by_cases hd : r0.debounceMs.isSome
      · rw [if_pos hd] at h
        exact absurd h (by simp)
      · rw [if_neg hd] at h
        injection h with h'
        subst h'
        exact ⟨fun hc => hd hc.2, fun ri hri => hi ri hri⟩
  | queue n =>
      simp only [applyModTok] at h
      by_cases hd : r0.throttleMs.isSome
      · rw [if_pos hd] at h
        exact absurd h (by simp)
      · rw [if_neg hd] at h
        injection h with h'
        subst h'
        exact ⟨fun hc => hd hc.1, fun ri hri => hi ri hri⟩
  | delay n =>
      injection h with h'
      subst h'
      exact ⟨hex, fun ri hri => hi ri hri⟩
  | onceM =>
      injection h with h'
      subst h'
      exact ⟨hex, fun ri hri => hi ri hri⟩
  | changedM =>
      injection h with h'
      subst h'
      exact ⟨hex, fun ri hri => hi ri hri⟩
  | scrollM e =>
      injection h with h'
      subst h'
      exact ⟨hex, fun ri hri => hi ri hri⟩
  | intersectM r2 =>
      injection h with h'
      subst h'
      refine ⟨hex, ?_⟩
      intro ri hri
      have hr2 : r2 = some ri := by
        have : some r2 = some (some ri) := hri
        injection this
      exact hmt ri (by rw [hr2])

/-- Folding well-formed tokens from a well-formed record stays well
formed. -/
theorem foldMods_wf : ∀ {toks : List ModTok} {r0 r : TrigMods},
    foldMods r0 toks = .ok r → WFMods r0 →
    (∀ mt ∈ toks, ∀ ri, mt = .intersectM (some ri) → ri ≠ [] ∧ noSep ri) →
    WFMods r
  | [], r0, r, h, h0, _ => by
      simp only [foldMods] at h
      injection h with h'
      subst h'
      exact h0
  | mt :: toks, r0, r, h, h0, hall => by
      simp only [foldMods] at h
      cases happ : applyModTok r0 mt with
      | error e =>
          rw [happ] at h
          exact absurd h (by simp [Except.bind])
      | ok r1 =>
          rw [happ] at h
          simp only [Except.bind] at h
          exact foldMods_wf h (applyModTok_wf happ h0 (hall mt (by simp)))
            (fun q hq => hall q (List.mem_cons_of_mem mt hq))

/-- A successful event-token parse yields well-formed pieces. -/
theorem parseEventTok_wf {cs ev : List Char} {cond : Option TrigCond}
    (h : parseEventTok cs = .ok (ev, cond))
    (hgood : ∀ ch ∈ cs, ch ≠ ',' ∧ ch ≠ ' ') :
    ev ≠ [] ∧ noSep ev ∧ '[' ∉ ev ∧
    (∀ c, cond = some c → WFCond c ∧ noSep (condToChars c) ∧ ']' ∉ condToChars c) := by
  simp only [parseEventTok] at h
  by_cases hev : cs.takeWhile (fun x => decide (x ≠ '[')) = []
  · rw [if_pos hev] at h
    exact absurd h (by simp)
  · rw [if_neg hev] at h
    have hevsub : ∀ x ∈ cs.takeWhile (fun x2 => decide (x2 ≠ '[')), x ∈ cs ∧ x ≠ '[' := by
      intro x hx
      have hp := mem_takeWhile_mem_pred hx
      exact ⟨hp.1, by simpa using hp.2⟩
    split at h
    case _ hdw =>
        injection h with h'
        injection h' with ha hb
        subst ha
        subst hb
        refine ⟨hev, ?_, ?_, ?_⟩
        · intro ch hch
          exact hgood ch (hevsub ch hch).1
        · intro hm
          exact (hevsub '[' hm).2 rfl
        · intro c hc
          cases hc
    case _ x rest hdw =>
        split at h
        case _ hdw2 =>
            cases hpc : parseCond (rest.takeWhile (fun x2 => decide (x2 ≠ ']'))) with
            | error e =>
                rw [hpc] at h
                exact absurd h (by simp [Except.map])
            | ok c0 =>
                rw [hpc] at h
                simp only [Except.map] at h
                injection h with h'
                injection h' with ha hb
                subst ha
                subst hb
                obtain ⟨hwf, hchars⟩ := parseCond_chars hpc
                have hrest : ∀ ch ∈ rest, ch ∈ cs := by
                  intro ch hch
                  have hm : ch ∈ cs.dropWhile (fun x2 => decide (x2 ≠ '[')) := by
                    rw [hdw]
                    exact List.mem_cons_of_mem x hch
                  exact mem_dropWhile_mem hm
                refine ⟨hev, ?_, ?_, ?_⟩
                · intro ch hch
                  exact hgood ch (hevsub ch hch).1
                · intro hm
                  exact (hevsub '[' hm).2 rfl
                · intro c hc
                  have hcc : c = c0 := by
                    injection hc with hcc2
                    exact hcc2.symm
                  subst hcc
                  refine ⟨hwf, ?_, ?_⟩
                  · intro ch hch
                    rw [hchars] at hch
                    have hp := mem_takeWhile_mem_pred hch
                    exact hgood ch (hrest ch hp.1)
                  · intro hm
                    rw [hchars] at hm
                    have hp := (mem_takeWhile_mem_pred hm).2
                    simp at hp
        case _ => exact absurd h (by simp)

/-- A successful alternate parse is well formed. -/
theorem parseSpecChars_wf {cs : List Char} {sp : TrigSpec}
    (h : parseSpecChars cs = .ok sp) (hnc : ',' ∉ cs) : WFSpec sp := by
  have htokgood : ∀ t ∈ splitTokens cs, ∀ ch ∈ t, ch ≠ ',' ∧ ch ≠ ' ' := by
    intro t ht ch hch
    have ht2 : t ∈ splitSep ' ' cs := List.mem_of_mem_filter ht
    constructor
    · intro hc
      subst hc
      exact hnc (mem_splitSep_mem ht2 hch)
    · intro hc
      subst hc
      exact mem_splitSep_no_sep ht2 hch
  simp only [parseSpecChars] at h
  split at h
  case _ hsp => exact absurd h (by simp)
  case _ t0 mts hsp =>
      cases het : parseEventTok t0 with
      | error e =>
          rw [het] at h
          exact absurd h (by simp [Except.bind])
      | ok ec =>
          obtain ⟨ev0, cond0⟩ := ec
          rw [het] at h
          simp only [Except.bind] at h
          cases hmt : mapExcept parseModTok mts with
          | error e =>
              rw [hmt] at h
              exact absurd h (by simp [Except.bind])
          | ok toks =>
              rw [hmt] at h
              simp only [Except.bind] at h
              cases hfm : foldMods noMods toks with
              | error e =>
                  rw [hfm] at h
                  exact absurd h (by simp [Except.map])
              | ok r =>
                  rw [hfm] at h
                  simp only [Except.map] at h
                  injection h with h'
                  subst h'
                  have hevwf := parseEventTok_wf het (htokgood t0 (by rw [hsp]; simp))
                  have htokwf : ∀ mt ∈ toks, ∀ ri, mt = .intersectM (some ri) →
                      ri ≠ [] ∧ noSep ri := by
                    intro mt hmtk ri hri
                    rcases mapExcept_ok_forall hmt mt hmtk with ⟨tok, htokmem, hptok⟩
                    have hint := parseModTok_intersect hptok ri hri
                    refine ⟨hint.1, ?_⟩
                    intro ch hch
                    exact htokgood tok (by rw [hsp]; simp [htokmem]) ch (hint.2 ch hch)
                  have hmodswf : WFMods r :=
                    foldMods_wf hfm ⟨by simp [noMods], by simp [noMods]⟩ htokwf
                  exact ⟨hevwf.1, hevwf.2.1, hevwf.2.2.1, hevwf.2.2.2, hmodswf⟩

/-- A successful descriptor parse is well formed. -/
theorem parseTriggerChars_wf {cs : List Char} {d : TrigDescriptor}
    (h : parseTriggerChars cs = .ok d) : WFDesc d := by
  simp only [parseTriggerChars] at h
  constructor
  · cases hsp : splitSep ',' cs with
    | nil => exact absurd hsp (splitSep_ne_nil ',' cs)
    | cons f fs =>
        rw [hsp] at h
        exact mapExcept_ok_ne_nil h
  · intro sp hsp
    rcases mapExcept_ok_forall h sp hsp with ⟨frag, hfrag, hpf⟩
    exact parseSpecChars_wf hpf (mem_splitSep_no_sep hfrag)

/-- C8: parsing is idempotent through serialization: whenever a trigger
specification string parses to a descriptor, serializing that descriptor
and re-parsing yields the same descriptor, i.e.
parse(serialize(parse(s))) = parse(s). -/
theorem parse_serialize_roundtrip_c8 (s : String) (d : TrigDescriptor)
    (h : parseTrigger s = .ok d) :
    parseTrigger (serializeTrigger d) = .ok d := by
  have hwf : WFDesc d := parseTriggerChars_wf h
  have hround := parseTriggerChars_round d hwf
  exact hround

/-- Concrete descriptor used in the C8 witness: the parse of
"keyup[ctrlKey+Enter] delay:1s once, input[value='abc'] changed queue
intersect:0.5 scroll[top]". -/
def witnessDesc : TrigDescriptor :=
  [⟨"keyup".toList, some (.modKey "ctrlKey".toList "Enter".toList),
     { throttleMs := none, debounceMs := none, delayMs := some 1000,
       once := true, changedOnly := false, intersect := none, scrollEdge := none }⟩,
   ⟨"input".toList, some (.valueEquals "abc".toList),
     { throttleMs := none, debounceMs := some 300, delayMs := none,
       once := false, changedOnly := true, intersect := some (some "0.5".toList),
       scrollEdge := some .top }⟩]

/-- Witness for C8: a concrete specification exercising conditions, key
combinations, durations unit conversion, the queue default, intersect
ratios and scroll edges round-trips. -/
theorem parse_serialize_roundtrip_c8_witness :
    parseTrigger (serializeTrigger witnessDesc) = .ok witnessDesc :=
  parse_serialize_roundtrip_c8
    "keyup[ctrlKey+Enter] delay:1s once, input[value='abc'] changed queue intersect:0.5 scroll[top]"
    witnessDesc (by rfl)

end WSX
